import Mathlib

/-!
Tagger: hierarchical tag propagation over dot-delimited metric paths

A shallow embedding of `tagger/tagger.go` and `tagger/tree.go`.

* A Go `[]byte` is a `List UInt8`; a Go `int` is an `Int` kept in the signed
  64-bit range by `wrapInt`.
* `Metric.Tags` is a Go `map[string]bool` whose values are only ever written
  as `true`; what the program observes of it is its key set, a
  `Finset String`.
* A `*Metric` stored in `metricMap` always points into `metricList`; it is the
  index of the element it points to.  A `*Tag` always points into
  `rules.Tag`; it is the index of the rule.
* Loops that are not bounded by a counter run on fuel and return `none` when
  the fuel is used up before the loop leaves.
-/

namespace Tagger

/-! ## Data model -/

/-- The byte `'.'`. -/
def dot : UInt8 := 46

/-- A metric of `tagger.go`: `Path []byte` and `Tags map[string]bool`. -/
structure Metric where
  Path : List UInt8
  Tags : Finset String

/-- The Go map `metricMap : map[string]*Metric`, pointers being indices into
`metricList`. A missing key reads as the nil pointer, `none`. -/
abbrev MetricMap := List UInt8 → Option Nat

/-- The map `make(map[string]*Metric, 0)`. -/
def MetricMap.empty : MetricMap := fun _ => none

/-- The assignment `metricMap[k] = v`. -/
def MetricMap.insert (mp : MetricMap) (k : List UInt8) (v : Nat) : MetricMap :=
  fun q => if q = k then some v else mp q

/-- The writes `metricMap[unsafeString(metricList[index].Path)] = &metricList[index]`
of the decoding loop, for the metrics `ml` stored from index `i` on. -/
def buildMetricMap : List Metric → Nat → MetricMap → MetricMap
  | [], _, mp => mp
  | m :: ms, i, mp => buildMetricMap ms (i + 1) (mp.insert m.Path i)

/-- The `metricMap` the decoding loop leaves for the metric list `ml`. -/
def metricMapOf (ml : List Metric) : MetricMap :=
  buildMetricMap ml 0 MetricMap.empty

/-- The tag set of `metricList[i]` (empty when `i` is out of range). -/
def tagsAt (ml : List Metric) (i : Nat) : Finset String :=
  match ml[i]? with
  | some m => m.Tags
  | none => ∅

/-- The path of `metricList[i]` (empty when `i` is out of range). -/
def pathAt (ml : List Metric) (i : Nat) : List UInt8 :=
  match ml[i]? with
  | some m => m.Path
  | none => []

/-- The loop `for k := range src { dst.Tags[k] = true }` with `dst` the tag map
of `metricList[i]`: every key of `ts` is inserted. -/
def addTags (ml : List Metric) (i : Nat) (ts : Finset String) : List Metric :=
  match ml[i]? with
  | some m => ml.set i { m with Tags := m.Tags ∪ ts }
  | none => ml

/-! ## The ancestor walk shared by both propagation phases -/

/-- Go's `bytes.LastIndexByte`: the index of the last `c` in `s`, or `-1`. -/
def LastIndexByte : List UInt8 → UInt8 → Int
  | [], _ => -1
  | b :: bs, c =>
    let r := LastIndexByte bs c
    if 0 ≤ r then r + 1 else if b = c then 0 else -1

/-- The statement `if len(p) > 0 && p[len(p)-1] == '.' { p = p[:len(p)-1] }`. -/
def trimDot (p : List UInt8) : List UInt8 :=
  if 0 < p.length ∧ p[p.length - 1]? = some dot then p.take (p.length - 1) else p

/-- The inner `for` loop of a propagation phase, with `body s key` standing for
what the phase does with the key `p[:index+1]`:
`index := bytes.LastIndexByte(p, '.'); if index < 0 { break }; ...; p = p[:index]`. -/
def walkAncestors {σ : Type} (body : σ → List UInt8 → σ) :
    Nat → List UInt8 → σ → Option σ
  | 0, _, _ => none
  | fuel + 1, p, s =>
    let index := LastIndexByte p dot
    if index < 0 then some s
    else walkAncestors body fuel (p.take index.toNat) (body s (p.take (index.toNat + 1)))

/-- The keys looked up in `metricMap` by the ancestor walk started at `p`, in
the order of the lookups. -/
def ancestorLoop (fuel : Nat) (p : List UInt8) : Option (List (List UInt8)) :=
  walkAncestors (fun ks k => ks ++ [k]) fuel p []

/-- The keys a propagation phase looks up for a metric with path `path`. -/
def ancestorKeys (path : List UInt8) : Option (List (List UInt8)) :=
  ancestorLoop ((trimDot path).length + 1) (trimDot path)

/-! ## Phase 1 and Phase 2 -/

/-- Body of phase 1 for the metric at index `i` and one key:
`parent := metricMap[key]; if parent != nil { for k := range parent.Tags { m.Tags[k] = true } }`. -/
def phase1Body (mp : MetricMap) (i : Nat) (ml : List Metric) (key : List UInt8) :
    List Metric :=
  match mp key with
  | some j => addTags ml i (tagsAt ml j)
  | none => ml

/-- Body of phase 2 for the metric at index `i` and one key:
`parent := metricMap[key]; if parent != nil { for k := range m.Tags { parent.Tags[k] = true } }`. -/
def phase2Body (mp : MetricMap) (i : Nat) (ml : List Metric) (key : List UInt8) :
    List Metric :=
  match mp key with
  | some j => addTags ml j (tagsAt ml i)
  | none => ml

/-- One iteration of `for _, m := range metricList` in "copy from parents to
childs", for `m = metricList[i]`. -/
def phase1Step (mp : MetricMap) (ml : List Metric) (i : Nat) : Option (List Metric) :=
  let p := trimDot (pathAt ml i)
  walkAncestors (phase1Body mp i) (p.length + 1) p ml

/-- One iteration of `for _, m := range metricList` in "copy from childs to
parents", for `m = metricList[i]`. -/
def phase2Step (mp : MetricMap) (ml : List Metric) (i : Nat) : Option (List Metric) :=
  let p := trimDot (pathAt ml i)
  walkAncestors (phase2Body mp i) (p.length + 1) p ml

/-- Runs `step` for the indices of `order`, one after the other. -/
def runOrder (step : List Metric → Nat → Option (List Metric)) :
    List Nat → List Metric → Option (List Metric)
  | [], ml => some ml
  | i :: is, ml =>
    match step ml i with
    | some ml1 => runOrder step is ml1
    | none => none

/-- Phase 1 iterating the metrics in the order `order`. -/
def phase1Order (mp : MetricMap) (order : List Nat) (ml : List Metric) :
    Option (List Metric) :=
  runOrder (phase1Step mp) order ml

/-- Phase 2 iterating the metrics in the order `order`. -/
def phase2Order (mp : MetricMap) (order : List Nat) (ml : List Metric) :
    Option (List Metric) :=
  runOrder (phase2Step mp) order ml

/-- Phase 1 of `Make`, "copy from parents to childs": `range metricList`
visits the indices `0, 1, ..., len(metricList)-1`. -/
def phase1 (mp : MetricMap) (ml : List Metric) : Option (List Metric) :=
  phase1Order mp (List.range ml.length) ml

/-- Phase 2 of `Make`, "copy from childs to parents". -/
def phase2 (mp : MetricMap) (ml : List Metric) : Option (List Metric) :=
  phase2Order mp (List.range ml.length) ml

/-- Both propagation phases in the order of `Make`: phase 1, then phase 2. -/
def propagate (mp : MetricMap) (ml : List Metric) : Option (List Metric) :=
  match phase1 mp ml with
  | some ml1 => phase2 mp ml1
  | none => none

/-- Both phases with chosen iteration orders. -/
def propagateOrder (mp : MetricMap) (o1 o2 : List Nat) (ml : List Metric) :
    Option (List Metric) :=
  match phase1Order mp o1 ml with
  | some ml1 => phase2Order mp o2 ml1
  | none => none

/-- The two phases in the swapped order: phase 2, then phase 1. -/
def propagateSwapped (mp : MetricMap) (ml : List Metric) : Option (List Metric) :=
  match phase2 mp ml with
  | some ml1 => phase1 mp ml1
  | none => none

/-- The tag sets of a metric list, by index. -/
def tagsOf (ml : List Metric) : List (Finset String) := ml.map Metric.Tags


/-- One tag copy: every key of the tag map of `metricList[e.2]` is inserted into
the tag map of `metricList[e.1]`. -/
def copyTags (ml : List Metric) (e : Nat × Nat) : List Metric :=
  addTags ml e.1 (tagsAt ml e.2)

/-- A sequence of tag copies `(destination, source)`, run from left to right. -/
def applyEdges (es : List (Nat × Nat)) (ml : List Metric) : List Metric :=
  es.foldl copyTags ml

/-! ## The ancestor relation and the copies a phase performs -/

/-- The key `k` is `p[:i+1]` for an index `i` with `p[i] == '.'`. -/
def IsAncestorKey (k p : List UInt8) : Prop :=
  ∃ i : Nat, p[i]? = some dot ∧ k = p.take (i + 1)

/-- The path `a` is an ancestor of the path `m`: `a` equals `p[:i+1]` for some
index `i` with `p[i] == '.'`, where `p` is `m` with one trailing `'.'` removed
if present. -/
def IsAncestor (a m : List UInt8) : Prop :=
  IsAncestorKey a (trimDot m)

/-- The keys the ancestor walk passes to its body, in order (the walk itself
is `walkAncestors`; this is the list it folds over). -/
def walkKeys : Nat → List UInt8 → List (List UInt8)
  | 0, _ => []
  | fuel + 1, p =>
    let index := LastIndexByte p dot
    if index < 0 then []
    else p.take (index.toNat + 1) :: walkKeys fuel (p.take index.toNat)

/-- The non-nil `parent` pointers the ancestor walk of `metricList[i]` finds in
`metricMap`, in the order of the walk. -/
def parents (mp : MetricMap) (ml : List Metric) (i : Nat) : List Nat :=
  (walkKeys ((trimDot (pathAt ml i)).length + 1) (trimDot (pathAt ml i))).filterMap mp

/-- The tag copies `(destination, source)` of phase 1 run in the order `order`. -/
def edges1 (mp : MetricMap) (ml : List Metric) : List Nat → List (Nat × Nat)
  | [] => []
  | i :: is => (parents mp ml i).map (fun j => (i, j)) ++ edges1 mp ml is

/-- The tag copies `(destination, source)` of phase 2 run in the order `order`. -/
def edges2 (mp : MetricMap) (ml : List Metric) : List Nat → List (Nat × Nat)
  | [] => []
  | i :: is => (parents mp ml i).map (fun j => (j, i)) ++ edges2 mp ml is

/-- Every pointer in `mp` points to a metric of `ml` whose path is its key (what
the decoding loop establishes for `metricMap`; the phases never write to
`metricMap` nor to a `Path`). -/
def MapOK (mp : MetricMap) (ml : List Metric) : Prop :=
  ∀ k j, mp k = some j → j < ml.length ∧ pathAt ml j = k

/-- Closed form of phase 1 at index `x`: the tags of `metricList[x]` and of
every parent its walk finds. -/
def downSet (mp : MetricMap) (ml : List Metric) (x : Nat) : Finset String :=
  tagsAt ml x ∪ (parents mp ml x).toFinset.biUnion (tagsAt ml)

/-- Closed form of phase 2 at index `x`: the tags of `metricList[x]` and of
every metric whose walk finds `x` as a parent. -/
def upSet (mp : MetricMap) (ml : List Metric) (x : Nat) : Finset String :=
  tagsAt ml x ∪
    ((Finset.range ml.length).filter (fun d => x ∈ parents mp ml d)).biUnion (tagsAt ml)

/-- Closed form of phase 1 followed by phase 2 at index `x`. -/
def finalSet (mp : MetricMap) (ml : List Metric) (x : Nat) : Finset String :=
  downSet mp ml x ∪
    ((Finset.range ml.length).filter (fun d => x ∈ parents mp ml d)).biUnion (downSet mp ml)

/-- Tag `t` is carried, before propagation, by the corpus metric with path `p`
or by a corpus metric whose path is an ancestor of `p`. -/
def DownTag (ml : List Metric) (p : List UInt8) (t : String) : Prop :=
  ∃ m ∈ ml, (m.Path = p ∨ IsAncestor m.Path p) ∧ t ∈ m.Tags

/-- Tag `t` reaches the path `p` through phase 1, or reaches through phase 1 a
corpus metric that has `p` as an ancestor. -/
def FinalTag (ml : List Metric) (p : List UInt8) (t : String) : Prop :=
  DownTag ml p t ∨ ∃ d ∈ ml, IsAncestor p d.Path ∧ DownTag ml d.Path t

/-- Closed form of the swapped order, phase 2 followed by phase 1, at index `x`. -/
def swappedSet (mp : MetricMap) (ml : List Metric) (x : Nat) : Finset String :=
  upSet mp ml x ∪ (parents mp ml x).toFinset.biUnion (upSet mp ml)

/-! ## Example corpora -/

/-- The corpus `"g."`, `"g.p."`, `"g.p.c"`: the grandparent carries `A`, the
parent nothing, the grandchild `B`. -/
def chainCorpus (A B : String) : List Metric :=
  [⟨[103, 46], {A}⟩, ⟨[103, 46, 112, 46], ∅⟩, ⟨[103, 46, 112, 46, 99], {B}⟩]

/-- The corpus `"g."`, `"g.a"`, `"g.b"`: only `"g.a"` carries a tag. -/
def siblingCorpus : List Metric :=
  [⟨[103, 46], ∅⟩, ⟨[103, 46, 97], {"B"}⟩, ⟨[103, 46, 98], ∅⟩]

/-- The corpus `"db."`, `"db.primary."`, `"db.primary.latency"`, only the last
one tagged `role=db`. -/
def dbCorpus : List Metric :=
  [⟨[100, 98, 46], ∅⟩,
   ⟨[100, 98, 46, 112, 114, 105, 109, 97, 114, 121, 46], ∅⟩,
   ⟨[100, 98, 46, 112, 114, 105, 109, 97, 114, 121, 46, 108, 97, 116, 101, 110, 99, 121],
     {"role=db"}⟩]

/-! ## Rules, the prefix tree and the two matching passes -/

/-- The fields of a rule (`Tag`) that `Make` and `PrefixTree` read:
`HasPrefix string` and `BytesHasPrefix []byte` (`none` is the nil slice). The
other conditions of a rule are only read by `MatchAndMark`. -/
structure Tag where
  HasPrefix : List UInt8
  BytesHasPrefix : Option (List UInt8)

/-- The part of the rule compilation loop of `Make` that concerns the prefix:
`if tag.HasPrefix != "" { tag.BytesHasPrefix = []byte(tag.HasPrefix) }`. -/
def compileTag (t : Tag) : Tag :=
  if t.HasPrefix ≠ [] then { t with BytesHasPrefix := some t.HasPrefix } else t

/-- The rule compilation loop of `Make` over `rules.Tag`. -/
def compileRules (rules : List Tag) : List Tag := rules.map compileTag

/-- The struct `PrefixTree`: `Next [256]*PrefixTree` (`none` is the nil pointer)
and `Rules []*Tag`, a rule pointer being the index of the rule in `rules.Tag`.
A nil `Rules` slice and an empty one behave alike in `Add` and in the walk;
both are the empty list. -/
inductive PrefixTree where
  | mk (Next : UInt8 → Option PrefixTree) (Rules : List Nat) : PrefixTree

/-- The value `&PrefixTree{}`. -/
def PrefixTree.empty : PrefixTree := .mk (fun _ => none) []

/-- The field `Rules`. -/
def PrefixTree.Rules : PrefixTree → List Nat
  | .mk _ rules => rules

/-- The field `Next`. -/
def PrefixTree.Next : PrefixTree → UInt8 → Option PrefixTree
  | .mk next _ => next

/-- The method `PrefixTree.Add`: walk down from `t` along `prefix`, creating each missing
child, and append `rule` to the `Rules` of the node reached. -/
def PrefixTree.Add : PrefixTree → List UInt8 → Nat → PrefixTree
  | .mk next rules, [], rule => .mk next (rules ++ [rule])
  | .mk next rules, b :: bs, rule =>
    .mk (fun c =>
      if c = b then
        some (PrefixTree.Add
          (match next b with
           | some x => x
           | none => PrefixTree.empty) bs rule)
      else next c) rules

/-- The loop "Mark prefix tree" of `Make` for the rules `rules`, the first of
which has index `i`: every rule with a non-nil `BytesHasPrefix` is added. -/
def addRules : List Tag → Nat → PrefixTree → PrefixTree
  | [], _, t => t
  | r :: rs, i, t =>
    addRules rs (i + 1)
      (match r.BytesHasPrefix with
       | some p => t.Add p i
       | none => t)

/-- The prefix tree `Make` builds from `rules.Tag`. -/
def buildPrefixTree (rules : List Tag) : PrefixTree :=
  addRules rules 0 PrefixTree.empty

/-- The prefix tree walk of `Make` for one path, as the list of the `Rules` of
the nodes it visits, in order: `x = x.Next[m.Path[j]]`, leave when `x` is nil,
run the rules of `x`, `j++`. -/
def treeVisit : PrefixTree → List UInt8 → List (List Nat)
  | _, [] => []
  | .mk next _, b :: bs =>
    match next b with
    | none => []
    | some x => x.Rules :: treeVisit x bs

/-- The rules on which the prefix tree walk invokes `MatchAndMark` for a path,
in the order of the invocations. -/
def treeWalk (t : PrefixTree) (path : List UInt8) : List Nat :=
  (treeVisit t path).flatten

/-- The rules on which the loop "start stupid match" invokes `MatchAndMark`
for any metric: the rules, from index `i` on, whose `BytesHasPrefix` is nil. -/
def fullScanFrom : List Tag → Nat → List Nat
  | [], _ => []
  | r :: rs, i =>
    match r.BytesHasPrefix with
    | some _ => fullScanFrom rs (i + 1)
    | none => i :: fullScanFrom rs (i + 1)

/-- The invocations of the full-scan pass for one metric. -/
def fullScan (rules : List Tag) : List Nat := fullScanFrom rules 0

/-- The node reached from `t` along `q`, if every edge exists. -/
def PrefixTree.nodeAt : PrefixTree → List UInt8 → Option PrefixTree
  | t, [] => some t
  | .mk next _, b :: bs =>
    match next b with
    | none => none
    | some x => x.nodeAt bs

/-- The `Rules` of the node reached from `t` along `q`; empty when there is no
such node. -/
def PrefixTree.rulesAt (t : PrefixTree) (q : List UInt8) : List Nat :=
  match t.nodeAt q with
  | some x => x.Rules
  | none => []

/-- The method `MatchAndMark` invoked on `metric` for the rules `trace`, in order. The
method is not part of the two files; `mark r path tags` is the tag map it
leaves when invoked with rule `r` on a metric with path `path` and tags
`tags`. -/
def applyRules (mark : Tag → List UInt8 → Finset String → Finset String)
    (rules : List Tag) (trace : List Nat) (m : Metric) : Metric :=
  trace.foldl (fun m j =>
    match rules[j]? with
    | some r => { m with Tags := mark r m.Path m.Tags }
    | none => m) m

/-- The loop "prefix tree match" of `Make`. -/
def prefixTreeMatch (mark : Tag → List UInt8 → Finset String → Finset String)
    (rules : List Tag) (t : PrefixTree) (ml : List Metric) : List Metric :=
  ml.map (fun m => applyRules mark rules (treeWalk t m.Path) m)

/-- The loop "start stupid match" of `Make`. -/
def fullScanMatch (mark : Tag → List UInt8 → Finset String → Finset String)
    (rules : List Tag) (ml : List Metric) : List Metric :=
  ml.map (fun m => applyRules mark rules (fullScan rules) m)

/-- The loop "print result with tags": the metrics passed to `fmt.Println`. -/
def printed (ml : List Metric) : List Metric :=
  ml.filter (fun m => m.Tags ≠ ∅)

/-- The function `Make` from the decoded metric list on: compile the rules, build the prefix
tree, run the two matching passes, the two propagation phases, and print. The
result is the final metric list and the printed metrics. -/
def makeFrom (mark : Tag → List UInt8 → Finset String → Finset String)
    (rawRules : List Tag) (mp : MetricMap) (ml : List Metric) :
    Option (List Metric × List Metric) :=
  let rules := compileRules rawRules
  let tree := buildPrefixTree rules
  let ml1 := prefixTreeMatch mark rules tree ml
  let ml2 := fullScanMatch mark rules ml1
  match propagate mp ml2 with
  | some out => some (out, printed out)
  | none => none

/-- The rule `has-prefix = "servers."`. -/
def serversRule : Tag := ⟨[115, 101, 114, 118, 101, 114, 115, 46], none⟩

/-- A `MatchAndMark` that sets the tag `category=servers` on exactly the paths
that have the literal prefix of the rule. -/
def serversMark (r : Tag) (path : List UInt8) (tags : Finset String) : Finset String :=
  match r.BytesHasPrefix with
  | some p => if p.isPrefixOf path then tags ∪ {"category=servers"} else tags
  | none => tags

/-- The corpus `"servers."`, `"servers.web01.cpu.load"`, `"other.metric"`, as
decoded: no tags. -/
def serversCorpus : List Metric :=
  [⟨[115, 101, 114, 118, 101, 114, 115, 46], ∅⟩,
   ⟨[115, 101, 114, 118, 101, 114, 115, 46, 119, 101, 98, 48, 49, 46, 99, 112, 117, 46,
      108, 111, 97, 100], ∅⟩,
   ⟨[111, 116, 104, 101, 114, 46, 109, 101, 116, 114, 105, 99], ∅⟩]

/-- How often the prefix tree walk of `path` meets rule `j` among the rules
`rs` (the first of which has index `i`): once when its `BytesHasPrefix` is a
non-empty prefix of `path`. -/
def prefixHits (path : List UInt8) (j : Nat) : List Tag → Nat → Nat
  | [], _ => 0
  | r :: rs, i =>
    (match r.BytesHasPrefix with
     | some p => if j = i ∧ p ≠ [] ∧ p <+: path then 1 else 0
     | none => 0) + prefixHits path j rs (i + 1)

/-! ## Decoding the metric corpus -/

/-- The errors the decoding can return: `ErrUvarintRead`, `ErrUvarintOverflow`
and `ErrClickHouseResponse` of the package `clickhouse`. -/
inductive DecodeError where
  | UvarintRead
  | UvarintOverflow
  | ClickHouseResponse
  deriving DecidableEq

/-- How a Go function ends: it returns a value with a nil error, it returns a
non-nil error, or it panics at run time. -/
inductive Outcome (α : Type) where
  | ok (a : α)
  | error (e : DecodeError)
  | panic

/-- A Go `int` on a 64-bit platform: the two's-complement value of `z`. -/
def wrapInt (z : Int) : Int := (z + 2 ^ 63) % 2 ^ 64 - 2 ^ 63

/-- The conversion `int(namelen)` of a `uint64`. -/
def intOfUint64 (n : Nat) : Int := wrapInt (n : Int)

/-- Modelled from the spec: the loop of `clickhouse.ReadUvarint`, which is not
among the two files; the standard unsigned LEB128 decoder of a `uint64`, as Go's
`binary.Uvarint`. Byte `i` carries seven value bits at position `7 * i`; a byte
below `0x80` ends the number; the tenth byte may only be `0` or `1`. `x` is the
value read so far, `s = 7 * i`. -/
def readUvarintLoop : List UInt8 → Nat → Nat → Nat → Except DecodeError (Nat × Nat)
  | [], _, _, _ => .error .UvarintRead
  | b :: bs, i, x, s =>
    if b.toNat < 128 then
      if 9 < i ∨ (i = 9 ∧ 1 < b.toNat) then .error .UvarintOverflow
      else .ok ((x + b.toNat * 2 ^ s) % 2 ^ 64, i + 1)
    else readUvarintLoop bs (i + 1) (x + (b.toNat % 128) * 2 ^ s) (s + 7)

/-- Modelled from the spec: `clickhouse.ReadUvarint`, returning the value and
the number of bytes read, or an error. -/
def ReadUvarint (array : List UInt8) : Except DecodeError (Nat × Nat) :=
  readUvarintLoop array 0 0 0

/-- The loop of `countMetrics`. `none`: the fuel ran out before the loop
returned. -/
def countLoop (body : List UInt8) : Nat → Int → Int → Option (Outcome Int)
  | 0, _, _ => none
  | fuel + 1, count, offset =>
    if (body.length : Int) ≤ offset then
      if offset = (body.length : Int) then some (.ok count)
      else some (.error .ClickHouseResponse)
    else if offset < 0 then some .panic
    else
      match ReadUvarint (body.drop offset.toNat) with
      | .error e => some (.error e)
      | .ok (namelen, readBytes) =>
        countLoop body fuel (wrapInt (count + 1))
          (wrapInt (offset + wrapInt ((readBytes : Int) + intOfUint64 namelen)))

/-- The function `countMetrics`, run for at most `fuel` iterations. A negative
`offset` makes `body[offset:]` panic. -/
def countMetrics (fuel : Nat) (body : List UInt8) : Option (Outcome Int) :=
  countLoop body fuel 0 0

/-- The zero value of `Metric`, as `make([]Metric, count)` fills the list. -/
def Metric.zero : Metric := ⟨[], ∅⟩

/-- The metric decoding loop of `Make`, with `lo = offset+readBytes` and
`hi = offset+readBytes+int(namelen)`. The slice expression `body[lo:hi]` panics
unless `0 <= lo <= hi <= len(body)` (Go checks `hi` against the capacity, which
for the buffer read from the file is taken to be its length), and
`metricList[index]` panics unless `index < len(metricList)`. Each stored metric
gets its path and a fresh empty tag map. -/
def decodeLoop (body : List UInt8) :
    Nat → Nat → Int → List Metric → MetricMap → Option (Outcome (List Metric × MetricMap))
  | 0, _, _, _, _ => none
  | fuel + 1, index, offset, metricList, metricMap =>
    if (body.length : Int) ≤ offset then
      if offset = (body.length : Int) then some (.ok (metricList, metricMap))
      else some (.error .ClickHouseResponse)
    else if offset < 0 then some .panic
    else
      match ReadUvarint (body.drop offset.toNat) with
      | .error e => some (.error e)
      | .ok (namelen, readBytes) =>
        let lo := wrapInt (offset + (readBytes : Int))
        let hi := wrapInt (lo + intOfUint64 namelen)
        if metricList.length ≤ index ∨ lo < 0 ∨ hi < lo ∨ (body.length : Int) < hi then
          some .panic
        else
          let path := (body.drop lo.toNat).take (hi - lo).toNat
          decodeLoop body fuel (index + 1)
            (wrapInt (offset + wrapInt ((readBytes : Int) + intOfUint64 namelen)))
            (metricList.set index ⟨path, ∅⟩) (metricMap.insert path index)

/-- The metric decoding of `Make` for a buffer on which `countMetrics` returned
`count`: `metricList := make([]Metric, count)`, an empty `metricMap`, and the
loop from `index = 0`, `offset = 0`. -/
def decodeMetrics (fuel : Nat) (body : List UInt8) (count : Nat) :
    Option (Outcome (List Metric × MetricMap)) :=
  decodeLoop body fuel 0 0 (List.replicate count Metric.zero) MetricMap.empty

/-- What `Make` does with the buffer: `countMetrics`, whose error is returned
before any list is made, then the decoding loop. -/
def readMetrics (fuel : Nat) (body : List UInt8) :
    Option (Outcome (List Metric × MetricMap)) :=
  match countMetrics fuel body with
  | none => none
  | some (.error e) => some (.error e)
  | some .panic => some .panic
  | some (.ok count) => if count < 0 then some .panic else decodeMetrics fuel body count.toNat

/-- Modelled from the spec: the unsigned LEB128 encoding of `x`, as Go's
`binary.PutUvarint` writes it; at most nine bytes carry a continuation bit. -/
def putUvarintFuel : Nat → Nat → List UInt8
  | 0, x => [UInt8.ofNat x]
  | fuel + 1, x =>
    if x < 128 then [UInt8.ofNat x]
    else UInt8.ofNat (x % 128 + 128) :: putUvarintFuel fuel (x / 128)

/-- Modelled from the spec: the varint length prefix of an entry. -/
def PutUvarint (x : Nat) : List UInt8 := putUvarintFuel 9 x

/-- Modelled from the spec: the wire format of a corpus, the concatenation of
`uvarint(len(path)) ++ path` over the paths. -/
def encodeCorpus : List (List UInt8) → List UInt8
  | [] => []
  | p :: ps => PutUvarint p.length ++ p ++ encodeCorpus ps

/-- A buffer whose first length prefix is `2^63 - 1`. -/
def overflowBody : List UInt8 := [255, 255, 255, 255, 255, 255, 255, 255, 127]

/-- A buffer whose first length prefix is `2^64 - 1`, followed by one byte. -/
def wrapBody : List UInt8 := [255, 255, 255, 255, 255, 255, 255, 255, 255, 1, 0]

/-! ## Emission, and the closed forms in the words of the specification -/

/-- One iteration of the loop "print result with tags":
`if len(m.Tags) != 0 { fmt.Println(m) }`, with `out` the metrics printed so far. -/
def printStep (out : List Metric) (m : Metric) : List Metric :=
  if m.Tags.card ≠ 0 then out ++ [m] else out

/-- The loop "print result with tags" over `metricList`, as the sequence of
metrics it prints. -/
def printLoop (ml : List Metric) : List Metric :=
  ml.foldl printStep []

/-- Tag `t` is in `P1(m)`: it is an initial tag of `metricList[m]` or of a
corpus metric whose path is an ancestor of the path of `metricList[m]`. -/
def InP1 (ml : List Metric) (m : Nat) (t : String) : Prop :=
  t ∈ tagsAt ml m ∨
    ∃ a, a < ml.length ∧ IsAncestor (pathAt ml a) (pathAt ml m) ∧ t ∈ tagsAt ml a

/-- Tag `t` is in `P1(x)` or in `P1(d)` for a corpus metric `d` that has
`metricList[x]` as an ancestor. -/
def InFinal (ml : List Metric) (x : Nat) (t : String) : Prop :=
  InP1 ml x t ∨
    ∃ d, d < ml.length ∧ IsAncestor (pathAt ml x) (pathAt ml d) ∧ InP1 ml d t

/-- The indices `i` with `p[i] == '.'`, in increasing order. -/
def dotIndices (p : List UInt8) : List Nat :=
  (List.range p.length).filter (fun i => p[i]? = some dot)

/-- The prefixes `p[:i+1]` for each index `i` with `p[i] == '.'`, taken from the
largest `i` to the smallest. -/
def dotPrefixes (p : List UInt8) : List (List UInt8) :=
  (dotIndices p).reverse.map (fun i => p.take (i + 1))

/-- Rule `k` of `rs` exists and has `BytesHasPrefix` equal to `q`. -/
def hasPrefixAt (rs : List Tag) (q : List UInt8) (k : Nat) : Bool :=
  match rs[k]? with
  | some r => decide (r.BytesHasPrefix = some q)
  | none => false

/-- The rules whose literal prefix is `q`, in declaration order. -/
def rulesWithPrefix (rules : List Tag) (q : List UInt8) : List Nat :=
  (List.range rules.length).filter (fun j => hasPrefixAt rules q j)

/-- A buffer of ten bytes whose length prefix is `2^64 - 10`. -/
def loopBody : List UInt8 := [246, 255, 255, 255, 255, 255, 255, 255, 255, 1]

/-! ## Lemmas: tag copies -/

theorem addTags_length (ml : List Metric) (i : Nat) (ts : Finset String) :
    (addTags ml i ts).length = ml.length := by
  unfold addTags
  split <;> simp

theorem pathAt_addTags (ml : List Metric) (i : Nat) (ts : Finset String) (k : Nat) :
    pathAt (addTags ml i ts) k = pathAt ml k := by
  unfold addTags
  split
  · rename_i m hm
    unfold pathAt
    rw [List.getElem?_set]
    by_cases hik : i = k
    · subst hik
      have hlt : i < ml.length := by
        rcases Nat.lt_or_ge i ml.length with h | h
        · exact h
        · rw [List.getElem?_eq_none h] at hm; cases hm
      simp [hlt, hm]
    · simp [hik]
  · rfl

theorem tagsAt_addTags (ml : List Metric) (i : Nat) (ts : Finset String) (k : Nat)
    (hi : i < ml.length) :
    tagsAt (addTags ml i ts) k = if k = i then tagsAt ml i ∪ ts else tagsAt ml k := by
  unfold addTags
  have hget : ml[i]? = some ml[i] := List.getElem?_eq_getElem hi
  rw [hget]
  simp only
  unfold tagsAt
  rw [List.getElem?_set]
  by_cases hik : i = k
  · subst hik
    simp [hi, hget]
  · have hki : ¬ k = i := fun h => hik h.symm
    simp [hik, hki]

theorem addTags_of_ge (ml : List Metric) (i : Nat) (ts : Finset String)
    (hi : ml.length ≤ i) : addTags ml i ts = ml := by
  unfold addTags
  rw [List.getElem?_eq_none hi]

theorem tagsAt_subset_addTags (ml : List Metric) (i : Nat) (ts : Finset String) (k : Nat) :
    tagsAt ml k ⊆ tagsAt (addTags ml i ts) k := by
  rcases Nat.lt_or_ge i ml.length with hi | hi
  · rw [tagsAt_addTags ml i ts k hi]
    split
    · rename_i h; subst h; exact Finset.subset_union_left
    · exact Finset.Subset.refl _
  · rw [addTags_of_ge ml i ts hi]

theorem applyEdges_length (es : List (Nat × Nat)) (ml : List Metric) :
    (applyEdges es ml).length = ml.length := by
  induction es generalizing ml with
  | nil => rfl
  | cons e es ih =>
    show (applyEdges es (copyTags ml e)).length = ml.length
    rw [ih, copyTags, addTags_length]

theorem pathAt_applyEdges (es : List (Nat × Nat)) (ml : List Metric) (k : Nat) :
    pathAt (applyEdges es ml) k = pathAt ml k := by
  induction es generalizing ml with
  | nil => rfl
  | cons e es ih =>
    show pathAt (applyEdges es (copyTags ml e)) k = pathAt ml k
    rw [ih, copyTags, pathAt_addTags]

theorem applyEdges_append (es fs : List (Nat × Nat)) (ml : List Metric) :
    applyEdges (es ++ fs) ml = applyEdges fs (applyEdges es ml) := by
  simp [applyEdges, List.foldl_append]

/-- Tag copies never remove a tag. -/
theorem tagsAt_subset_applyEdges (es : List (Nat × Nat)) (ml : List Metric) (k : Nat) :
    tagsAt ml k ⊆ tagsAt (applyEdges es ml) k := by
  induction es generalizing ml with
  | nil => exact Finset.Subset.refl _
  | cons e es ih =>
    show tagsAt ml k ⊆ tagsAt (applyEdges es (copyTags ml e)) k
    exact Finset.Subset.trans (tagsAt_subset_addTags ml e.1 _ k) (ih _)

/-- A family of tag sets that bounds the state and is closed under every copy
of the sequence bounds the final state. -/
theorem applyEdges_subset (F : Nat → Finset String) (es : List (Nat × Nat))
    (ml : List Metric) (h0 : ∀ k, tagsAt ml k ⊆ F k)
    (hF : ∀ e ∈ es, F e.2 ⊆ F e.1) :
    ∀ k, tagsAt (applyEdges es ml) k ⊆ F k := by
  induction es generalizing ml with
  | nil => exact h0
  | cons e es ih =>
    intro k
    show tagsAt (applyEdges es (copyTags ml e)) k ⊆ F k
    apply ih
    · intro k
      unfold copyTags
      rcases Nat.lt_or_ge e.1 ml.length with hi | hi
      · rw [tagsAt_addTags ml e.1 _ k hi]
        split
        · rename_i h
          subst h
          exact Finset.union_subset (h0 _)
            (Finset.Subset.trans (h0 _) (hF e (List.mem_cons_self _ _)))
        · exact h0 k
      · rw [addTags_of_ge ml e.1 _ hi]; exact h0 k
    · intro e1 he1
      exact hF e1 (List.mem_cons_of_mem _ he1)

/-- Every copy of the sequence delivers at least the tags its source had at
the start. -/
theorem applyEdges_copies (es : List (Nat × Nat)) (ml : List Metric)
    (d s : Nat) (hd : d < ml.length) (he : (d, s) ∈ es) :
    tagsAt ml s ⊆ tagsAt (applyEdges es ml) d := by
  induction es generalizing ml with
  | nil => cases he
  | cons e es ih =>
    show tagsAt ml s ⊆ tagsAt (applyEdges es (copyTags ml e)) d
    rcases List.mem_cons.mp he with h | h
    · subst h
      refine Finset.Subset.trans ?_ (tagsAt_subset_applyEdges es _ d)
      unfold copyTags
      rw [tagsAt_addTags ml d _ d hd]
      simp
    · refine Finset.Subset.trans (tagsAt_subset_addTags ml e.1 (tagsAt ml e.2) s) ?_
      exact ih (copyTags ml e) (by rw [copyTags, addTags_length]; exact hd) h

/-! ## Lemmas: the ancestor walk -/

theorem LastIndexByte_spec (p : List UInt8) (c : UInt8) :
    (LastIndexByte p c = -1 ∧ ∀ i : Nat, p[i]? ≠ some c) ∨
    (∃ n : Nat, LastIndexByte p c = (n : Int) ∧ p[n]? = some c ∧
      ∀ j : Nat, n < j → p[j]? ≠ some c) := by
  induction p with
  | nil => left; exact ⟨rfl, by intro i; simp⟩
  | cons b bs ih =>
    rcases ih with ⟨h1, h2⟩ | ⟨n, h1, h2, h3⟩
    · by_cases hb : b = c
      · right
        refine ⟨0, ?_, ?_, ?_⟩
        · simp [LastIndexByte, h1, hb]
        · simp [hb]
        · intro j hj
          obtain ⟨j1, rfl⟩ : ∃ j1, j = j1 + 1 := ⟨j - 1, by omega⟩
          simpa using h2 j1
      · left
        refine ⟨?_, ?_⟩
        · simp [LastIndexByte, h1, hb]
        · intro i
          cases i with
          | zero => simpa using hb
          | succ i1 => simpa using h2 i1
    · right
      refine ⟨n + 1, ?_, ?_, ?_⟩
      · have h0 : (0 : Int) ≤ (n : Int) := Int.ofNat_nonneg n
        simp [LastIndexByte, h1, h0]
      · simpa using h2
      · intro j hj
        obtain ⟨j1, rfl⟩ : ∃ j1, j = j1 + 1 := ⟨j - 1, by omega⟩
        simpa using h3 j1 (by omega)

theorem lt_length_of_getElem?_eq_some {α : Type} (l : List α) (n : Nat) (a : α)
    (h : l[n]? = some a) : n < l.length := by
  rcases Nat.lt_or_ge n l.length with h1 | h1
  · exact h1
  · rw [List.getElem?_eq_none h1] at h; cases h

/-- With fuel above the length of `p` the ancestor walk leaves through its
`break`, having run its body on the keys `walkKeys` in order. -/
theorem walkAncestors_eq {σ : Type} (body : σ → List UInt8 → σ) :
    ∀ (fuel : Nat) (p : List UInt8) (s : σ), p.length < fuel →
      walkAncestors body fuel p s = some ((walkKeys fuel p).foldl body s) := by
  intro fuel
  induction fuel with
  | zero => intro p s h; omega
  | succ fuel ih =>
    intro p s h
    rcases LastIndexByte_spec p dot with ⟨h1, _⟩ | ⟨n, h1, h2, _⟩
    · simp [walkAncestors, walkKeys, h1]
    · have hn : n < p.length := lt_length_of_getElem?_eq_some p n dot h2
      have hneg : ¬ ((n : Int) < 0) := by omega
      simp only [walkAncestors, walkKeys, h1, hneg, if_false, Int.toNat_ofNat,
        List.foldl_cons]
      apply ih
      rw [List.length_take]
      omega

theorem mem_walkKeys (k : List UInt8) :
    ∀ (fuel : Nat) (p : List UInt8), p.length < fuel →
      (k ∈ walkKeys fuel p ↔ IsAncestorKey k p) := by
  intro fuel
  induction fuel with
  | zero => intro p h; omega
  | succ fuel ih =>
    intro p h
    rcases LastIndexByte_spec p dot with ⟨h1, h2⟩ | ⟨n, h1, h2, h3⟩
    · simp only [walkKeys, h1]
      constructor
      · intro hk; simp at hk
      · rintro ⟨i, hi, _⟩; exact absurd hi (h2 i)
    · have hn : n < p.length := lt_length_of_getElem?_eq_some p n dot h2
      have hneg : ¬ ((n : Int) < 0) := by omega
      have hlen : (p.take n).length < fuel := by rw [List.length_take]; omega
      simp only [walkKeys, h1, hneg, if_false, Int.toNat_ofNat, List.mem_cons, ih _ hlen]
      constructor
      · rintro (hk | ⟨i, hi, hk⟩)
        · exact ⟨n, h2, hk⟩
        · have hin : i < n := by
            have := lt_length_of_getElem?_eq_some _ i dot hi
            rw [List.length_take] at this; omega
          refine ⟨i, ?_, ?_⟩
          · rw [List.getElem?_take_of_lt hin] at hi; exact hi
          · rw [hk, List.take_take]
            congr 1; omega
      · rintro ⟨i, hi, hk⟩
        rcases Nat.lt_trichotomy i n with hlt | heq | hgt
        · right
          refine ⟨i, ?_, ?_⟩
          · rw [List.getElem?_take_of_lt hlt]; exact hi
          · rw [hk, List.take_take]
            congr 1; omega
        · left; rw [hk, heq]
        · exact absurd hi (h3 i hgt)

/-! ## Lemmas: a phase is a sequence of tag copies -/

theorem foldl_phase1Body (mp : MetricMap) (i : Nat) (ks : List (List UInt8))
    (ml : List Metric) :
    ks.foldl (phase1Body mp i) ml
      = applyEdges ((ks.filterMap mp).map (fun j => (i, j))) ml := by
  induction ks generalizing ml with
  | nil => rfl
  | cons k ks ih =>
    rw [List.foldl_cons, ih]
    cases hk : mp k with
    | none => simp [phase1Body, hk, List.filterMap_cons]
    | some j => simp [phase1Body, hk, List.filterMap_cons, applyEdges, copyTags]

theorem foldl_phase2Body (mp : MetricMap) (i : Nat) (ks : List (List UInt8))
    (ml : List Metric) :
    ks.foldl (phase2Body mp i) ml
      = applyEdges ((ks.filterMap mp).map (fun j => (j, i))) ml := by
  induction ks generalizing ml with
  | nil => rfl
  | cons k ks ih =>
    rw [List.foldl_cons, ih]
    cases hk : mp k with
    | none => simp [phase2Body, hk, List.filterMap_cons]
    | some j => simp [phase2Body, hk, List.filterMap_cons, applyEdges, copyTags]

theorem phase1Step_eq (mp : MetricMap) (ml : List Metric) (i : Nat) :
    phase1Step mp ml i
      = some (applyEdges ((parents mp ml i).map (fun j => (i, j))) ml) := by
  unfold phase1Step parents
  simp only
  rw [walkAncestors_eq _ _ _ _ (Nat.lt_succ_self _), foldl_phase1Body]

theorem phase2Step_eq (mp : MetricMap) (ml : List Metric) (i : Nat) :
    phase2Step mp ml i
      = some (applyEdges ((parents mp ml i).map (fun j => (j, i))) ml) := by
  unfold phase2Step parents
  simp only
  rw [walkAncestors_eq _ _ _ _ (Nat.lt_succ_self _), foldl_phase2Body]

theorem parents_congr (mp : MetricMap) (ml ml1 : List Metric)
    (h : ∀ k, pathAt ml1 k = pathAt ml k) (i : Nat) :
    parents mp ml1 i = parents mp ml i := by
  unfold parents
  rw [h i]

theorem edges1_congr (mp : MetricMap) (ml ml1 : List Metric)
    (h : ∀ k, pathAt ml1 k = pathAt ml k) (order : List Nat) :
    edges1 mp ml1 order = edges1 mp ml order := by
  induction order with
  | nil => rfl
  | cons i is ih => simp only [edges1, ih, parents_congr mp ml ml1 h]

theorem edges2_congr (mp : MetricMap) (ml ml1 : List Metric)
    (h : ∀ k, pathAt ml1 k = pathAt ml k) (order : List Nat) :
    edges2 mp ml1 order = edges2 mp ml order := by
  induction order with
  | nil => rfl
  | cons i is ih => simp only [edges2, ih, parents_congr mp ml ml1 h]

/-- Phase 1 always completes, and it is the sequence of copies `edges1`. -/
theorem phase1Order_eq (mp : MetricMap) (order : List Nat) (ml : List Metric) :
    phase1Order mp order ml = some (applyEdges (edges1 mp ml order) ml) := by
  unfold phase1Order
  induction order generalizing ml with
  | nil => rfl
  | cons i is ih =>
    simp only [runOrder, phase1Step_eq, edges1]
    rw [ih, edges1_congr mp ml _ (pathAt_applyEdges _ ml), applyEdges_append]

/-- Phase 2 always completes, and it is the sequence of copies `edges2`. -/
theorem phase2Order_eq (mp : MetricMap) (order : List Nat) (ml : List Metric) :
    phase2Order mp order ml = some (applyEdges (edges2 mp ml order) ml) := by
  unfold phase2Order
  induction order generalizing ml with
  | nil => rfl
  | cons i is ih =>
    simp only [runOrder, phase2Step_eq, edges2]
    rw [ih, edges2_congr mp ml _ (pathAt_applyEdges _ ml), applyEdges_append]

theorem mem_edges1 (mp : MetricMap) (ml : List Metric) (order : List Nat) (d s : Nat) :
    (d, s) ∈ edges1 mp ml order ↔ d ∈ order ∧ s ∈ parents mp ml d := by
  induction order with
  | nil => simp [edges1]
  | cons i is ih =>
    simp only [edges1, List.mem_append, List.mem_map, Prod.mk.injEq, ih, List.mem_cons]
    constructor
    · rintro (⟨j, hj, rfl, rfl⟩ | ⟨h1, h2⟩)
      · exact ⟨Or.inl rfl, hj⟩
      · exact ⟨Or.inr h1, h2⟩
    · rintro ⟨rfl | h1, h2⟩
      · exact Or.inl ⟨s, h2, rfl, rfl⟩
      · exact Or.inr ⟨h1, h2⟩

theorem mem_edges2 (mp : MetricMap) (ml : List Metric) (order : List Nat) (d s : Nat) :
    (d, s) ∈ edges2 mp ml order ↔ s ∈ order ∧ d ∈ parents mp ml s := by
  induction order with
  | nil => simp [edges2]
  | cons i is ih =>
    simp only [edges2, List.mem_append, List.mem_map, Prod.mk.injEq, ih, List.mem_cons]
    constructor
    · rintro (⟨j, hj, rfl, rfl⟩ | ⟨h1, h2⟩)
      · exact ⟨Or.inl rfl, hj⟩
      · exact ⟨Or.inr h1, h2⟩
    · rintro ⟨rfl | h1, h2⟩
      · exact Or.inl ⟨d, h2, rfl, rfl⟩
      · exact Or.inr ⟨h1, h2⟩

theorem mem_parents (mp : MetricMap) (ml : List Metric) (i j : Nat) :
    j ∈ parents mp ml i ↔ ∃ key, IsAncestor key (pathAt ml i) ∧ mp key = some j := by
  unfold parents IsAncestor
  simp only [List.mem_filterMap, mem_walkKeys _ _ _ (Nat.lt_succ_self _)]

/-! ## Lemmas: `metricMap` and the ancestor relation -/

theorem pathAt_cons_succ (m : Metric) (ms : List Metric) (n : Nat) :
    pathAt (m :: ms) (n + 1) = pathAt ms n := by
  simp [pathAt]

theorem buildMetricMap_some (ms : List Metric) :
    ∀ (i : Nat) (mp : MetricMap) (k : List UInt8) (j : Nat),
      buildMetricMap ms i mp k = some j →
        mp k = some j ∨ ∃ n, n < ms.length ∧ j = i + n ∧ pathAt ms n = k := by
  induction ms with
  | nil => intro i mp k j h; exact Or.inl h
  | cons m ms ih =>
    intro i mp k j h
    rcases ih (i + 1) _ k j h with h1 | ⟨n, hn, hj, hp⟩
    · unfold MetricMap.insert at h1
      by_cases hk : k = m.Path
      · rw [if_pos hk] at h1
        right
        refine ⟨0, by simp, ?_, ?_⟩
        · cases h1; rfl
        · simp [pathAt, hk]
      · rw [if_neg hk] at h1
        exact Or.inl h1
    · right
      exact ⟨n + 1, by simpa using hn, by omega, by rw [pathAt_cons_succ]; exact hp⟩

theorem buildMetricMap_of_not_mem (ms : List Metric) :
    ∀ (i : Nat) (mp : MetricMap) (k : List UInt8),
      k ∉ ms.map Metric.Path → buildMetricMap ms i mp k = mp k := by
  induction ms with
  | nil => intro i mp k _; rfl
  | cons m ms ih =>
    intro i mp k hk
    simp only [List.map_cons, List.mem_cons, not_or] at hk
    show buildMetricMap ms (i + 1) _ k = mp k
    rw [ih _ _ _ hk.2]
    unfold MetricMap.insert
    rw [if_neg hk.1]

theorem buildMetricMap_nodup (ms : List Metric) :
    ∀ (i : Nat) (mp : MetricMap) (n : Nat), (ms.map Metric.Path).Nodup →
      n < ms.length → buildMetricMap ms i mp (pathAt ms n) = some (i + n) := by
  induction ms with
  | nil => intro i mp n _ hn; simp at hn
  | cons m ms ih =>
    intro i mp n hd hn
    rw [List.map_cons, List.nodup_cons] at hd
    cases n with
    | zero =>
      show buildMetricMap ms (i + 1) _ (pathAt (m :: ms) 0) = some (i + 0)
      have hp : pathAt (m :: ms) 0 = m.Path := by simp [pathAt]
      rw [hp, buildMetricMap_of_not_mem ms _ _ _ hd.1]
      simp [MetricMap.insert]
    | succ n =>
      show buildMetricMap ms (i + 1) _ (pathAt (m :: ms) (n + 1)) = some (i + (n + 1))
      rw [pathAt_cons_succ, ih (i + 1) _ n hd.2 (by simpa using hn)]
      congr 1; omega

/-- Every pointer stored in `metricMap` points to a metric of the list whose
path is the key. -/
theorem metricMapOf_some (ml : List Metric) (k : List UInt8) (j : Nat)
    (h : metricMapOf ml k = some j) : j < ml.length ∧ pathAt ml j = k := by
  rcases buildMetricMap_some ml 0 MetricMap.empty k j h with h1 | ⟨n, hn, hj, hp⟩
  · cases h1
  · have : j = n := by omega
    subst this
    exact ⟨hn, hp⟩

/-- With pairwise distinct paths, the path of each metric is mapped to it. -/
theorem metricMapOf_nodup (ml : List Metric) (hd : (ml.map Metric.Path).Nodup)
    (j : Nat) (hj : j < ml.length) : metricMapOf ml (pathAt ml j) = some j := by
  have := buildMetricMap_nodup ml 0 MetricMap.empty j hd hj
  simpa [metricMapOf] using this

theorem trimDot_take_succ (p : List UInt8) (i : Nat) (h : p[i]? = some dot) :
    trimDot (p.take (i + 1)) = p.take i := by
  have hi : i < p.length := lt_length_of_getElem?_eq_some p i dot h
  have hlen : (p.take (i + 1)).length = i + 1 := by rw [List.length_take]; omega
  have hlast : (p.take (i + 1))[i]? = some dot := by
    rw [List.getElem?_take_of_lt (Nat.lt_succ_self i)]; exact h
  unfold trimDot
  rw [hlen]
  simp only [Nat.add_sub_cancel, hlast, Nat.succ_pos, and_self, if_true, List.take_take]
  congr 1; omega

/-- The ancestor relation on paths is transitive. -/
theorem IsAncestor.trans {a b c : List UInt8} (hab : IsAncestor a b)
    (hbc : IsAncestor b c) : IsAncestor a c := by
  obtain ⟨i, hi, hb⟩ := hbc
  obtain ⟨k, hk, ha⟩ := hab
  rw [hb, trimDot_take_succ _ i hi] at hk ha
  have hki : k < i := by
    have := lt_length_of_getElem?_eq_some _ k dot hk
    rw [List.length_take] at this; omega
  refine ⟨k, ?_, ?_⟩
  · rw [List.getElem?_take_of_lt hki] at hk; exact hk
  · rw [ha, List.take_take]; congr 1; omega

theorem mapOK_metricMapOf (ml : List Metric) : MapOK (metricMapOf ml) ml :=
  fun k j h => metricMapOf_some ml k j h

theorem MapOK.congr {mp : MetricMap} {ml ml1 : List Metric} (h : MapOK mp ml)
    (hl : ml1.length = ml.length) (hp : ∀ k, pathAt ml1 k = pathAt ml k) :
    MapOK mp ml1 := by
  intro k j hk
  obtain ⟨h1, h2⟩ := h k j hk
  exact ⟨by omega, by rw [hp]; exact h2⟩

/-- The parents found for `metricList[i]` are pointers to metrics whose paths
are ancestors of its path. -/
theorem parents_sound {mp : MetricMap} {ml : List Metric} (hmp : MapOK mp ml)
    (i j : Nat) (h : j ∈ parents mp ml i) :
    j < ml.length ∧ IsAncestor (pathAt ml j) (pathAt ml i) := by
  obtain ⟨key, hk, hm⟩ := (mem_parents _ ml i j).mp h
  obtain ⟨hj, hp⟩ := hmp key j hm
  exact ⟨hj, by rw [hp]; exact hk⟩

/-- With pairwise distinct paths, the parents found for `metricList[i]` are
exactly the metrics of the list whose paths are ancestors of its path. -/
theorem mem_parents_iff (ml : List Metric) (hd : (ml.map Metric.Path).Nodup)
    (i j : Nat) :
    j ∈ parents (metricMapOf ml) ml i ↔
      j < ml.length ∧ IsAncestor (pathAt ml j) (pathAt ml i) := by
  constructor
  · exact parents_sound (mapOK_metricMapOf ml) i j
  · rintro ⟨hj, ha⟩
    exact (mem_parents _ ml i j).mpr ⟨pathAt ml j, ha, metricMapOf_nodup ml hd j hj⟩

/-- The parents of a parent are parents. -/
theorem parents_trans {mp : MetricMap} {ml : List Metric} (hmp : MapOK mp ml)
    (i j a : Nat) (hj : j ∈ parents mp ml i) (ha : a ∈ parents mp ml j) :
    a ∈ parents mp ml i := by
  obtain ⟨key, hk, hm⟩ := (mem_parents _ ml j a).mp ha
  have h2 := (parents_sound hmp i j hj).2
  exact (mem_parents _ ml i a).mpr ⟨key, hk.trans h2, hm⟩

/-- Two parents of one metric are equal or one is a parent of the other. -/
theorem parents_chain {mp : MetricMap} {ml : List Metric} (hmp : MapOK mp ml)
    (d a x : Nat) (ha : a ∈ parents mp ml d) (hx : x ∈ parents mp ml d) :
    a = x ∨ a ∈ parents mp ml x ∨ x ∈ parents mp ml a := by
  obtain ⟨ka, ⟨i, hi, hka⟩, hma⟩ := (mem_parents _ ml d a).mp ha
  obtain ⟨kx, ⟨j, hj, hkx⟩, hmx⟩ := (mem_parents _ ml d x).mp hx
  have hpa := (hmp ka a hma).2
  have hpx := (hmp kx x hmx).2
  have key : ∀ (i j : Nat) (ka kx : List UInt8) (p : List UInt8),
      p[i]? = some dot → p[j]? = some dot → ka = p.take (i + 1) →
      kx = p.take (j + 1) → i < j → IsAncestor ka kx := by
    intro i j ka kx p hi hj hka hkx hij
    refine ⟨i, ?_, ?_⟩
    · rw [hkx, trimDot_take_succ _ j hj, List.getElem?_take_of_lt hij]; exact hi
    · rw [hkx, trimDot_take_succ _ j hj, hka, List.take_take]; congr 1; omega
  rcases Nat.lt_trichotomy i j with hlt | heq | hgt
  · right; left
    refine (mem_parents _ ml x a).mpr ⟨ka, ?_, hma⟩
    rw [hpx]; exact key i j ka kx _ hi hj hka hkx hlt
  · left
    have : ka = kx := by rw [hka, hkx, heq]
    rw [this, hmx] at hma
    cases hma; rfl
  · right; right
    refine (mem_parents _ ml a x).mpr ⟨kx, ?_, hmx⟩
    rw [hpa]; exact key j i kx ka _ hj hi hkx hka hgt

/-- A metric whose walk finds a parent is a metric of the list. -/
theorem lt_length_of_mem_parents (mp : MetricMap) (ml : List Metric) (i j : Nat)
    (h : j ∈ parents mp ml i) : i < ml.length := by
  rcases Nat.lt_or_ge i ml.length with hi | hi
  · exact hi
  · exfalso
    obtain ⟨key, ⟨n, hn, _⟩, _⟩ := (mem_parents mp ml i j).mp h
    have hp : pathAt ml i = [] := by
      unfold pathAt; rw [List.getElem?_eq_none hi]
    rw [hp] at hn
    simp [trimDot] at hn

/-! ## Lemmas: closed forms of the two phases -/

theorem mem_downSet (mp : MetricMap) (ml : List Metric) (x : Nat) (t : String) :
    t ∈ downSet mp ml x ↔ t ∈ tagsAt ml x ∨ ∃ a ∈ parents mp ml x, t ∈ tagsAt ml a := by
  simp [downSet]

theorem mem_upSet (mp : MetricMap) (ml : List Metric) (x : Nat) (t : String) :
    t ∈ upSet mp ml x ↔
      t ∈ tagsAt ml x ∨ ∃ d, x ∈ parents mp ml d ∧ t ∈ tagsAt ml d := by
  simp only [upSet, Finset.mem_union, Finset.mem_biUnion, Finset.mem_filter,
    Finset.mem_range]
  constructor
  · rintro (h | ⟨d, ⟨_, hd⟩, ht⟩)
    · exact Or.inl h
    · exact Or.inr ⟨d, hd, ht⟩
  · rintro (h | ⟨d, hd, ht⟩)
    · exact Or.inl h
    · exact Or.inr ⟨d, ⟨lt_length_of_mem_parents mp ml d x hd, hd⟩, ht⟩

/-- Phase 1, run in any order that visits every metric, leaves at each index
the tags it had together with the tags its parents had. -/
theorem tagsAt_phase1 {mp : MetricMap} {ml : List Metric} (hmp : MapOK mp ml)
    (order : List Nat) (ho : ∀ i, i < ml.length → i ∈ order) (x : Nat) :
    tagsAt (applyEdges (edges1 mp ml order) ml) x = downSet mp ml x := by
  apply Finset.Subset.antisymm
  · apply applyEdges_subset (downSet mp ml)
    · intro k t ht
      exact (mem_downSet mp ml k t).mpr (Or.inl ht)
    · rintro ⟨d, s⟩ he t ht
      have hs : s ∈ parents mp ml d := ((mem_edges1 mp ml order d s).mp he).2
      rw [mem_downSet] at ht ⊢
      rcases ht with h | ⟨a, ha, h⟩
      · exact Or.inr ⟨s, hs, h⟩
      · exact Or.inr ⟨a, parents_trans hmp d s a hs ha, h⟩
  · intro t ht
    rcases (mem_downSet mp ml x t).mp ht with h | ⟨a, ha, h⟩
    · exact tagsAt_subset_applyEdges _ ml x h
    · have hx : x < ml.length := lt_length_of_mem_parents mp ml x a ha
      exact applyEdges_copies _ ml x a hx
        ((mem_edges1 mp ml order x a).mpr ⟨ho x hx, ha⟩) h

/-- Phase 2, run in any order that visits every metric, leaves at each index
the tags it had together with the tags of the metrics it is a parent of. -/
theorem tagsAt_phase2 {mp : MetricMap} {ml : List Metric} (hmp : MapOK mp ml)
    (order : List Nat) (ho : ∀ i, i < ml.length → i ∈ order) (x : Nat) :
    tagsAt (applyEdges (edges2 mp ml order) ml) x = upSet mp ml x := by
  apply Finset.Subset.antisymm
  · apply applyEdges_subset (upSet mp ml)
    · intro k t ht
      exact (mem_upSet mp ml k t).mpr (Or.inl ht)
    · rintro ⟨d, s⟩ he t ht
      have hs : d ∈ parents mp ml s := ((mem_edges2 mp ml order d s).mp he).2
      rw [mem_upSet] at ht ⊢
      rcases ht with h | ⟨e, hse, h⟩
      · exact Or.inr ⟨s, hs, h⟩
      · exact Or.inr ⟨e, parents_trans hmp e s d hse hs, h⟩
  · intro t ht
    rcases (mem_upSet mp ml x t).mp ht with h | ⟨d, hd, h⟩
    · exact tagsAt_subset_applyEdges _ ml x h
    · have hdl : d < ml.length := lt_length_of_mem_parents mp ml d x hd
      have hxl : x < ml.length := (parents_sound hmp d x hd).1
      exact applyEdges_copies _ ml x d hxl
        ((mem_edges2 mp ml order x d).mpr ⟨ho d hdl, hd⟩) h

theorem metricList_ext (ml ml1 : List Metric) (hl : ml1.length = ml.length)
    (hp : ∀ k, pathAt ml1 k = pathAt ml k) (ht : ∀ k, tagsAt ml1 k = tagsAt ml k) :
    ml1 = ml := by
  apply List.ext_getElem hl
  intro n h1 h2
  have hp1 := hp n
  have ht1 := ht n
  unfold pathAt at hp1
  unfold tagsAt at ht1
  rw [List.getElem?_eq_getElem h1, List.getElem?_eq_getElem h2] at hp1 ht1
  simp only at hp1 ht1
  cases h3 : ml1[n] with
  | mk p1 t1 =>
    cases h4 : ml[n] with
    | mk p2 t2 =>
      rw [h3, h4] at hp1 ht1
      simp only at hp1 ht1
      rw [hp1, ht1]

/-! ## Lemmas: both phases -/

theorem propagateOrder_eq (mp : MetricMap) (o1 o2 : List Nat) (ml : List Metric) :
    propagateOrder mp o1 o2 ml
      = some (applyEdges (edges2 mp ml o2) (applyEdges (edges1 mp ml o1) ml)) := by
  unfold propagateOrder
  rw [phase1Order_eq]
  simp only
  rw [phase2Order_eq, edges2_congr mp ml _ (pathAt_applyEdges _ ml)]

theorem propagate_eq_propagateOrder (mp : MetricMap) (ml : List Metric) :
    propagate mp ml
      = propagateOrder mp (List.range ml.length) (List.range ml.length) ml := by
  unfold propagate propagateOrder phase1 phase2
  rw [phase1Order_eq]
  simp only [applyEdges_length]

theorem propagateSwapped_eq (mp : MetricMap) (ml : List Metric) :
    propagateSwapped mp ml
      = some (applyEdges (edges1 mp ml (List.range ml.length))
          (applyEdges (edges2 mp ml (List.range ml.length)) ml)) := by
  unfold propagateSwapped phase1 phase2
  rw [phase2Order_eq]
  simp only [applyEdges_length]
  rw [phase1Order_eq, edges1_congr mp ml _ (pathAt_applyEdges _ ml)]

theorem mem_finalSet (mp : MetricMap) (ml : List Metric) (x : Nat) (t : String) :
    t ∈ finalSet mp ml x ↔
      t ∈ downSet mp ml x ∨ ∃ d, x ∈ parents mp ml d ∧ t ∈ downSet mp ml d := by
  simp only [finalSet, Finset.mem_union, Finset.mem_biUnion, Finset.mem_filter,
    Finset.mem_range]
  constructor
  · rintro (h | ⟨d, ⟨_, hd⟩, ht⟩)
    · exact Or.inl h
    · exact Or.inr ⟨d, hd, ht⟩
  · rintro (h | ⟨d, hd, ht⟩)
    · exact Or.inl h
    · exact Or.inr ⟨d, ⟨lt_length_of_mem_parents mp ml d x hd, hd⟩, ht⟩

/-- The tag sets after phase 1 and phase 2, whatever the two iteration
orders, as long as each visits every metric. -/
theorem tagsAt_propagate {mp : MetricMap} {ml : List Metric} (hmp : MapOK mp ml)
    (o1 o2 : List Nat) (h1 : ∀ i, i < ml.length → i ∈ o1)
    (h2 : ∀ i, i < ml.length → i ∈ o2) (x : Nat) :
    tagsAt (applyEdges (edges2 mp ml o2) (applyEdges (edges1 mp ml o1) ml)) x
      = finalSet mp ml x := by
  have hp := pathAt_applyEdges (edges1 mp ml o1) ml
  have hl := applyEdges_length (edges1 mp ml o1) ml
  have hmp1 : MapOK mp (applyEdges (edges1 mp ml o1) ml) := hmp.congr hl hp
  rw [← edges2_congr mp ml _ hp, tagsAt_phase2 hmp1 o2 (by rw [hl]; exact h2)]
  ext t
  rw [mem_upSet, mem_finalSet]
  simp only [parents_congr mp ml _ hp, tagsAt_phase1 hmp o1 h1]

theorem mem_of_perm_range {o : List Nat} {n : Nat} (h : o.Perm (List.range n)) :
    ∀ i, i < n → i ∈ o :=
  fun _ hi => h.mem_iff.mpr (List.mem_range.mpr hi)

theorem getElem_of_lt (ml : List Metric) (x : Nat) (hx : x < ml.length) :
    ∃ m ∈ ml, ml[x]? = some m ∧ pathAt ml x = m.Path ∧ tagsAt ml x = m.Tags := by
  refine ⟨ml[x], List.getElem_mem _, List.getElem?_eq_getElem hx, ?_, ?_⟩
  · simp [pathAt, List.getElem?_eq_getElem hx]
  · simp [tagsAt, List.getElem?_eq_getElem hx]

theorem index_of_mem (ml : List Metric) (m : Metric) (hm : m ∈ ml) :
    ∃ x, x < ml.length ∧ pathAt ml x = m.Path ∧ tagsAt ml x = m.Tags := by
  obtain ⟨x, hx, rfl⟩ := List.getElem_of_mem hm
  refine ⟨x, hx, ?_, ?_⟩
  · simp [pathAt, List.getElem?_eq_getElem hx]
  · simp [tagsAt, List.getElem?_eq_getElem hx]

theorem index_unique (ml : List Metric) (hd : (ml.map Metric.Path).Nodup)
    (x y : Nat) (hx : x < ml.length) (hy : y < ml.length)
    (h : pathAt ml x = pathAt ml y) : x = y := by
  have hx1 : x < (ml.map Metric.Path).length := by simpa using hx
  have hy1 : y < (ml.map Metric.Path).length := by simpa using hy
  have hget : (ml.map Metric.Path)[x] = (ml.map Metric.Path)[y] := by
    simp only [List.getElem_map]
    unfold pathAt at h
    rw [List.getElem?_eq_getElem hx, List.getElem?_eq_getElem hy] at h
    exact h
  exact (List.Nodup.getElem_inj_iff hd).mp hget

/-- With pairwise distinct paths the closed form of phase 1 is `DownTag`. -/
theorem mem_downSet_iff (ml : List Metric) (hd : (ml.map Metric.Path).Nodup)
    (x : Nat) (hx : x < ml.length) (t : String) :
    t ∈ downSet (metricMapOf ml) ml x ↔ DownTag ml (pathAt ml x) t := by
  rw [mem_downSet]
  constructor
  · rintro (h | ⟨a, ha, h⟩)
    · obtain ⟨m, hm, _, hp, ht⟩ := getElem_of_lt ml x hx
      exact ⟨m, hm, Or.inl hp.symm, by rw [← ht]; exact h⟩
    · obtain ⟨hal, hanc⟩ := (mem_parents_iff ml hd x a).mp ha
      obtain ⟨m, hm, _, hp, ht⟩ := getElem_of_lt ml a hal
      exact ⟨m, hm, Or.inr (by rw [← hp]; exact hanc), by rw [← ht]; exact h⟩
  · rintro ⟨m, hm, hpa, ht⟩
    obtain ⟨y, hy, hp, hty⟩ := index_of_mem ml m hm
    rcases hpa with h | h
    · have : y = x := index_unique ml hd y x hy hx (by rw [hp, h])
      subst this
      exact Or.inl (by rw [hty]; exact ht)
    · exact Or.inr ⟨y, (mem_parents_iff ml hd x y).mpr ⟨hy, by rw [hp]; exact h⟩,
        by rw [hty]; exact ht⟩

/-- With pairwise distinct paths the closed form of both phases is `FinalTag`. -/
theorem mem_finalSet_iff (ml : List Metric) (hd : (ml.map Metric.Path).Nodup)
    (x : Nat) (hx : x < ml.length) (t : String) :
    t ∈ finalSet (metricMapOf ml) ml x ↔ FinalTag ml (pathAt ml x) t := by
  rw [mem_finalSet, mem_downSet_iff ml hd x hx]
  constructor
  · rintro (h | ⟨d, hxd, h⟩)
    · exact Or.inl h
    · obtain ⟨_, hanc⟩ := (mem_parents_iff ml hd d x).mp hxd
      have hdl := lt_length_of_mem_parents _ ml d x hxd
      obtain ⟨m, hm, _, hp, _⟩ := getElem_of_lt ml d hdl
      rw [mem_downSet_iff ml hd d hdl, hp] at h
      exact Or.inr ⟨m, hm, by rw [← hp]; exact hanc, h⟩
  · rintro (h | ⟨m, hm, hanc, h⟩)
    · exact Or.inl h
    · obtain ⟨d, hdl, hp, _⟩ := index_of_mem ml m hm
      refine Or.inr ⟨d, (mem_parents_iff ml hd d x).mpr ⟨hx, by rw [hp]; exact hanc⟩, ?_⟩
      rw [mem_downSet_iff ml hd d hdl, hp]
      exact h

theorem DownTag_perm {ml ml1 : List Metric} (h : ml1.Perm ml) (p : List UInt8)
    (t : String) : DownTag ml1 p t ↔ DownTag ml p t := by
  unfold DownTag
  constructor
  · rintro ⟨m, hm, h1⟩; exact ⟨m, h.mem_iff.mp hm, h1⟩
  · rintro ⟨m, hm, h1⟩; exact ⟨m, h.mem_iff.mpr hm, h1⟩

theorem FinalTag_perm {ml ml1 : List Metric} (h : ml1.Perm ml) (p : List UInt8)
    (t : String) : FinalTag ml1 p t ↔ FinalTag ml p t := by
  unfold FinalTag
  rw [DownTag_perm h]
  constructor
  · rintro (h1 | ⟨d, hd, h2, h3⟩)
    · exact Or.inl h1
    · exact Or.inr ⟨d, h.mem_iff.mp hd, h2, (DownTag_perm h _ _).mp h3⟩
  · rintro (h1 | ⟨d, hd, h2, h3⟩)
    · exact Or.inl h1
    · exact Or.inr ⟨d, h.mem_iff.mpr hd, h2, (DownTag_perm h _ _).mpr h3⟩

theorem mem_swappedSet (mp : MetricMap) (ml : List Metric) (x : Nat) (t : String) :
    t ∈ swappedSet mp ml x ↔
      t ∈ upSet mp ml x ∨ ∃ a ∈ parents mp ml x, t ∈ upSet mp ml a := by
  simp [swappedSet]

/-- The tag sets after phase 2 followed by phase 1. -/
theorem tagsAt_propagateSwapped {mp : MetricMap} {ml : List Metric} (hmp : MapOK mp ml)
    (o1 o2 : List Nat) (h1 : ∀ i, i < ml.length → i ∈ o1)
    (h2 : ∀ i, i < ml.length → i ∈ o2) (x : Nat) :
    tagsAt (applyEdges (edges1 mp ml o1) (applyEdges (edges2 mp ml o2) ml)) x
      = swappedSet mp ml x := by
  have hp := pathAt_applyEdges (edges2 mp ml o2) ml
  have hl := applyEdges_length (edges2 mp ml o2) ml
  have hmp1 : MapOK mp (applyEdges (edges2 mp ml o2) ml) := hmp.congr hl hp
  rw [← edges1_congr mp ml _ hp, tagsAt_phase1 hmp1 o1 (by rw [hl]; exact h1)]
  ext t
  rw [mem_downSet, mem_swappedSet]
  simp only [parents_congr mp ml _ hp, tagsAt_phase2 hmp o2 h2]

/-- On a three-element chain (index 0 the grandparent, 1 the parent, 2 the
grandchild) both orders of the phases give the parent the tags of all three. -/
theorem chain_parent_sets (mp : MetricMap) (ml : List Metric) (hl : ml.length = 3)
    (h0 : parents mp ml 0 = []) (h1 : parents mp ml 1 = [0])
    (h2 : parents mp ml 2 = [1, 0]) :
    finalSet mp ml 1 = tagsAt ml 0 ∪ tagsAt ml 1 ∪ tagsAt ml 2 ∧
    swappedSet mp ml 1 = tagsAt ml 0 ∪ tagsAt ml 1 ∪ tagsAt ml 2 := by
  have hcases : ∀ d x, x ∈ parents mp ml d → d = 1 ∧ x = 0 ∨ d = 2 ∧ (x = 1 ∨ x = 0) := by
    intro d x hx
    have hd3 := lt_length_of_mem_parents _ _ d x hx
    rw [hl] at hd3
    interval_cases d
    · simp [h0] at hx
    · simp [h1] at hx; simp [hx]
    · simp [h2] at hx; simp [hx]
  constructor
  · ext t
    simp only [mem_finalSet, mem_downSet, Finset.mem_union]
    constructor
    · rintro (h | ⟨d, hd, h⟩)
      · simp [h1] at h; tauto
      · rcases hcases d 1 hd with ⟨rfl, h3⟩ | ⟨rfl, _⟩
        · omega
        · simp [h2] at h; tauto
    · intro h
      right
      refine ⟨2, by simp [h2], ?_⟩
      simp [h2]; tauto
  · ext t
    simp only [mem_swappedSet, mem_upSet, Finset.mem_union]
    constructor
    · rintro ((h | ⟨d, hd, h⟩) | ⟨a, ha, h⟩)
      · tauto
      · rcases hcases d 1 hd with ⟨rfl, h3⟩ | ⟨rfl, _⟩
        · omega
        · tauto
      · simp [h1] at ha
        subst ha
        rcases h with h | ⟨d, hd, h⟩
        · tauto
        · rcases hcases d 0 hd with ⟨rfl, _⟩ | ⟨rfl, _⟩ <;> tauto
    · intro h
      rcases h with (h | h) | h
      · right
        exact ⟨0, by simp [h1], Or.inl h⟩
      · exact Or.inl (Or.inl h)
      · left; right
        exact ⟨2, by simp [h2], h⟩

/-- After both phases a metric's tags are among the tags of each parent its
walk finds. -/
theorem finalSet_subset_parent {mp : MetricMap} {ml : List Metric} (hmp : MapOK mp ml)
    (d x : Nat) (hx : x ∈ parents mp ml d) : finalSet mp ml d ⊆ finalSet mp ml x := by
  intro t ht
  rw [mem_finalSet] at ht ⊢
  rcases ht with h | ⟨e, he, h⟩
  · exact Or.inr ⟨d, hx, h⟩
  · exact Or.inr ⟨e, parents_trans hmp e d x he hx, h⟩

theorem propagate_eq (mp : MetricMap) (ml : List Metric) :
    propagate mp ml
      = some (applyEdges (edges2 mp ml (List.range ml.length))
          (applyEdges (edges1 mp ml (List.range ml.length)) ml)) := by
  rw [propagate_eq_propagateOrder, propagateOrder_eq]

theorem tagsAt_propagate_range {mp : MetricMap} {ml : List Metric} (hmp : MapOK mp ml)
    (x : Nat) :
    tagsAt (applyEdges (edges2 mp ml (List.range ml.length))
      (applyEdges (edges1 mp ml (List.range ml.length)) ml)) x = finalSet mp ml x :=
  tagsAt_propagate hmp _ _ (fun _ hi => List.mem_range.mpr hi)
    (fun _ hi => List.mem_range.mpr hi) x

/-! ## Lemmas: the prefix tree -/

theorem Rules_Add (t : PrefixTree) (p : List UInt8) (r : Nat) :
    (t.Add p r).Rules = t.Rules ++ (if p = [] then [r] else []) := by
  cases t with
  | mk next rules =>
    cases p with
    | nil => simp [PrefixTree.Add, PrefixTree.Rules]
    | cons b bs => simp [PrefixTree.Add, PrefixTree.Rules]

theorem treeVisit_empty (path : List UInt8) : treeVisit PrefixTree.empty path = [] := by
  cases path with
  | nil => rfl
  | cons b bs => simp [treeVisit, PrefixTree.empty]

theorem treeWalk_empty (path : List UInt8) : treeWalk PrefixTree.empty path = [] := by
  simp [treeWalk, treeVisit_empty]

theorem treeWalk_nil (t : PrefixTree) : treeWalk t [] = [] := by
  cases t; simp [treeWalk, treeVisit]

theorem treeWalk_cons (next : UInt8 → Option PrefixTree) (rules : List Nat) (b : UInt8)
    (bs : List UInt8) :
    treeWalk (.mk next rules) (b :: bs) =
      match next b with
      | none => []
      | some x => x.Rules ++ treeWalk x bs := by
  unfold treeWalk
  simp only [treeVisit]
  cases next b <;> simp

theorem cons_prefix_cons_iff (c b : UInt8) (ps bs : List UInt8) :
    (c :: ps) <+: (b :: bs) ↔ c = b ∧ ps <+: bs := by
  simp [List.cons_prefix_cons]

/-- Adding a rule with prefix `p` adds one invocation of that rule to the walk
of `path` when `p` is a non-empty prefix of `path`, and changes nothing else. -/
theorem count_treeWalk_Add (j r : Nat) :
    ∀ (path p : List UInt8) (t : PrefixTree),
      (treeWalk (t.Add p r) path).count j
        = (treeWalk t path).count j + (if j = r ∧ p ≠ [] ∧ p <+: path then 1 else 0) := by
  intro path
  induction path with
  | nil =>
    intro p t
    rw [treeWalk_nil, treeWalk_nil]
    cases p with
    | nil => simp
    | cons c ps => simp
  | cons b bs ih =>
    intro p t
    cases t with
    | mk next rules =>
      cases p with
      | nil => simp [PrefixTree.Add, treeWalk_cons]
      | cons c ps =>
        simp only [PrefixTree.Add, treeWalk_cons]
        by_cases hbc : b = c
        · subst hbc
          simp only [if_true, cons_prefix_cons_iff, true_and, ne_eq, reduceCtorEq,
            not_false_eq_true]
          rw [List.count_append, ih, Rules_Add, List.count_append]
          cases hn : next b with
          | none =>
            have he : PrefixTree.empty.Rules = [] := rfl
            simp only [treeWalk_empty, he, List.count_nil]
            by_cases hps : ps = []
            · subst hps
              by_cases hjr : j = r <;> simp [hjr]
            · simp [hps]
          | some x =>
            simp only [List.count_append]
            by_cases hps : ps = []
            · subst hps
              by_cases hjr : j = r
              · subst hjr; simp; omega
              · simp [hjr]
            · simp [hps]; omega
        · have hcb : ¬ c = b := fun h => hbc h.symm
          simp [hbc, hcb, cons_prefix_cons_iff]

theorem count_treeWalk_addRules (path : List UInt8) (j : Nat) :
    ∀ (rs : List Tag) (i : Nat) (t : PrefixTree),
      (treeWalk (addRules rs i t) path).count j
        = (treeWalk t path).count j + prefixHits path j rs i := by
  intro rs
  induction rs with
  | nil => intro i t; simp [addRules, prefixHits]
  | cons r rs ih =>
    intro i t
    simp only [addRules, prefixHits]
    rw [ih]
    cases hr : r.BytesHasPrefix with
    | none => simp
    | some p => simp only [count_treeWalk_Add]; omega

theorem prefixHits_of_lt (path : List UInt8) (j : Nat) :
    ∀ (rs : List Tag) (i : Nat), j < i → prefixHits path j rs i = 0 := by
  intro rs
  induction rs with
  | nil => intro i _; rfl
  | cons r rs ih =>
    intro i hji
    simp only [prefixHits]
    rw [ih (i + 1) (by omega)]
    have : ¬ j = i := by omega
    cases r.BytesHasPrefix <;> simp [this]

theorem prefixHits_eq (path : List UInt8) (j : Nat) :
    ∀ (rs : List Tag) (i : Nat), i ≤ j →
      prefixHits path j rs i =
        match rs[j - i]? with
        | some r =>
          (match r.BytesHasPrefix with
           | some p => if p ≠ [] ∧ p <+: path then 1 else 0
           | none => 0)
        | none => 0 := by
  intro rs
  induction rs with
  | nil => intro i _; simp [prefixHits]
  | cons r rs ih =>
    intro i hij
    simp only [prefixHits]
    rcases Nat.eq_or_lt_of_le hij with h | h
    · subst h
      rw [prefixHits_of_lt path i rs (i + 1) (by omega)]
      simp
    · rw [ih (i + 1) (by omega)]
      have hne : ¬ j = i := by omega
      have hsub : j - i = (j - (i + 1)) + 1 := by omega
      rw [hsub]
      simp only [List.getElem?_cons_succ]
      cases r.BytesHasPrefix <;> simp [hne]

/-- The number of invocations of rule `j` in the prefix tree walk of `path`. -/
theorem count_treeWalk_build (rules : List Tag) (path : List UInt8) (j : Nat) :
    (treeWalk (buildPrefixTree rules) path).count j =
      match rules[j]? with
      | some r =>
        (match r.BytesHasPrefix with
         | some p => if p ≠ [] ∧ p <+: path then 1 else 0
         | none => 0)
      | none => 0 := by
  unfold buildPrefixTree
  rw [count_treeWalk_addRules, treeWalk_empty, prefixHits_eq path j rules 0 (Nat.zero_le j)]
  simp

theorem count_fullScanFrom (j : Nat) :
    ∀ (rs : List Tag) (i : Nat),
      (fullScanFrom rs i).count j =
        if i ≤ j then
          (match rs[j - i]? with
           | some r =>
             (match r.BytesHasPrefix with
              | some _ => 0
              | none => 1)
           | none => 0)
        else 0 := by
  intro rs
  induction rs with
  | nil => intro i; simp [fullScanFrom]
  | cons r rs ih =>
    intro i
    simp only [fullScanFrom]
    rcases Nat.lt_trichotomy j i with h | h | h
    · have h1 : ¬ i ≤ j := by omega
      have h2 : ¬ i + 1 ≤ j := by omega
      have h3 : ¬ i = j := by omega
      rcases hr : r.BytesHasPrefix with _ | p <;> simp [ih, h1, h2, h3, List.count_cons]
    · subst h
      have h2 : ¬ j + 1 ≤ j := by omega
      rcases hr : r.BytesHasPrefix with _ | p <;> simp [hr, ih, h2, List.count_cons]
    · have h1 : i ≤ j := by omega
      have h2 : i + 1 ≤ j := by omega
      have h3 : ¬ i = j := by omega
      have hsub : j - i = (j - (i + 1)) + 1 := by omega
      rw [hsub]
      rcases hr : r.BytesHasPrefix with _ | p <;> simp [ih, h1, h2, h3, List.count_cons]

/-- The number of invocations of rule `j` in the full-scan pass. -/
theorem count_fullScan (rules : List Tag) (j : Nat) :
    (fullScan rules).count j =
      match rules[j]? with
      | some r =>
        (match r.BytesHasPrefix with
         | some _ => 0
         | none => 1)
      | none => 0 := by
  unfold fullScan
  rw [count_fullScanFrom]
  simp

theorem nodeAt_cons (next : UInt8 → Option PrefixTree) (rules : List Nat) (b : UInt8)
    (q : List UInt8) :
    (PrefixTree.mk next rules).nodeAt (b :: q) =
      match next b with
      | none => none
      | some x => x.nodeAt q := by
  simp [PrefixTree.nodeAt]

theorem nodeAt_nil (t : PrefixTree) : t.nodeAt [] = some t := by
  cases t; simp [PrefixTree.nodeAt]

/-- The walk visits, in order, the nodes of the non-empty prefixes of `path`
that the tree has, and no prefix beyond the visited ones has a node. -/
theorem treeVisit_spec :
    ∀ (path : List UInt8) (t : PrefixTree),
      (treeVisit t path).length ≤ path.length ∧
      (∀ k, k < (treeVisit t path).length →
        ∃ x, t.nodeAt (path.take (k + 1)) = some x ∧
          (treeVisit t path)[k]? = some x.Rules) ∧
      (∀ k, (treeVisit t path).length ≤ k → k < path.length →
        t.nodeAt (path.take (k + 1)) = none) := by
  intro path
  induction path with
  | nil =>
    intro t
    cases t
    simp [treeVisit]
  | cons b bs ih =>
    intro t
    cases t with
    | mk next rules =>
      cases hn : next b with
      | none =>
        simp [treeVisit, hn, nodeAt_cons]
      | some x =>
        obtain ⟨h1, h2, h3⟩ := ih x
        simp only [treeVisit, hn, List.length_cons, List.take_succ_cons, nodeAt_cons]
        refine ⟨by omega, ?_, ?_⟩
        · intro k hk
          cases k with
          | zero => exact ⟨x, by simp [nodeAt_nil], by simp⟩
          | succ k =>
            obtain ⟨y, hy1, hy2⟩ := h2 k (by omega)
            exact ⟨y, hy1, by simpa using hy2⟩
        · intro k hk1 hk2
          cases k with
          | zero => omega
          | succ k => exact h3 k (by omega) (by omega)

/-! ## Lemmas: decoding -/

theorem wrapInt_of_range (z : Int) (h1 : -2 ^ 63 ≤ z) (h2 : z < 2 ^ 63) : wrapInt z = z := by
  unfold wrapInt
  omega

theorem toNat_ofNat_of_lt (n : Nat) (h : n < 256) : (UInt8.ofNat n).toNat = n := by
  simp [UInt8.ofNat, UInt8.toNat, Fin.ofNat, Nat.mod_eq_of_lt h]

theorem putUvarintFuel_length_pos (f y : Nat) : 0 < (putUvarintFuel f y).length := by
  cases f with
  | zero => simp [putUvarintFuel]
  | succ f =>
    unfold putUvarintFuel
    split <;> simp

/-- Reading back what `putUvarintFuel` wrote: the decoder stops after the
written bytes with the written value added at bit position `s`. -/
theorem readUvarintLoop_put :
    ∀ (f y i acc s : Nat) (rest : List UInt8), i + f = 9 → y < 2 * 128 ^ f →
      readUvarintLoop (putUvarintFuel f y ++ rest) i acc s
        = .ok ((acc + y * 2 ^ s) % 2 ^ 64, i + (putUvarintFuel f y).length) := by
  intro f
  induction f with
  | zero =>
    intro y i acc s rest hi hy
    have hy2 : y < 2 := by simpa using hy
    have hb : (UInt8.ofNat y).toNat = y := toNat_ofNat_of_lt y (by omega)
    have h1 : y < 128 := by omega
    have h2 : ¬ (9 < i ∨ (i = 9 ∧ 1 < y)) := by omega
    simp only [putUvarintFuel, List.singleton_append, readUvarintLoop, hb, h1,
      if_true, List.length_singleton]
    rw [if_neg h2]
  | succ f ih =>
    intro y i acc s rest hi hy
    unfold putUvarintFuel
    by_cases hlt : y < 128
    · have hb : (UInt8.ofNat y).toNat = y := toNat_ofNat_of_lt y (by omega)
      have h2 : ¬ (9 < i ∨ (i = 9 ∧ 1 < y)) := by omega
      simp only [hlt, if_true, List.singleton_append, readUvarintLoop, hb, h2, if_false,
        List.length_singleton]
    · have hb : (UInt8.ofNat (y % 128 + 128)).toNat = y % 128 + 128 :=
        toNat_ofNat_of_lt _ (by omega)
      have hge : ¬ (y % 128 + 128 < 128) := by omega
      have hmod : (y % 128 + 128) % 128 = y % 128 := by omega
      have hdiv : y / 128 < 2 * 128 ^ f := by
        rw [Nat.div_lt_iff_lt_mul (by norm_num)]
        rw [pow_succ] at hy
        omega
      simp only [hlt, if_false, List.cons_append, readUvarintLoop, hb, hge, hmod,
        List.length_cons]
      rw [ih (y / 128) (i + 1) _ (s + 7) rest (by omega) hdiv]
      have hval : acc + y % 128 * 2 ^ s + y / 128 * 2 ^ (s + 7) = acc + y * 2 ^ s := by
        have h128 : (2 : Nat) ^ (s + 7) = 128 * 2 ^ s := by
          rw [pow_add]; norm_num; ring
        have hy_eq : y = 128 * (y / 128) + y % 128 := (Nat.div_add_mod y 128).symm
        rw [h128]
        conv_rhs => rw [hy_eq]
        ring
      rw [hval]
      congr 2
      omega

/-- Round trip of one length prefix. -/
theorem ReadUvarint_PutUvarint (n : Nat) (hn : n < 2 ^ 64) (rest : List UInt8) :
    ReadUvarint (PutUvarint n ++ rest) = .ok (n, (PutUvarint n).length) := by
  unfold ReadUvarint PutUvarint
  have h9 : n < 2 * 128 ^ 9 := by
    have : (2 : Nat) * 128 ^ 9 = 2 ^ 64 := by norm_num
    omega
  rw [readUvarintLoop_put 9 n 0 0 0 rest (by rfl) h9]
  have hval : (0 + n * 2 ^ 0) % 2 ^ 64 = n := by
    rw [Nat.zero_add, Nat.pow_zero, Nat.mul_one]
    exact Nat.mod_eq_of_lt hn
  rw [hval, Nat.zero_add]

theorem encodeCorpus_length_ge (paths : List (List UInt8)) :
    paths.length ≤ (encodeCorpus paths).length := by
  induction paths with
  | nil => simp [encodeCorpus]
  | cons p ps ih =>
    have := putUvarintFuel_length_pos 9 p.length
    simp only [encodeCorpus, List.length_append, List.length_cons, PutUvarint]
    omega

theorem intOfUint64_of_lt (n : Nat) (h : n < 2 ^ 63) : intOfUint64 n = (n : Int) := by
  unfold intOfUint64
  apply wrapInt_of_range <;> omega

/-- The facts one iteration of either loop needs, at the start of an entry. -/
theorem entry_facts (body pre p rest : List UInt8)
    (hb : body = pre ++ (PutUvarint p.length ++ p ++ rest)) (hlen : body.length < 2 ^ 63) :
    ¬ ((body.length : Int) ≤ (pre.length : Int)) ∧
    ¬ ((pre.length : Int) < 0) ∧
    ReadUvarint (body.drop (pre.length : Int).toNat)
      = .ok (p.length, (PutUvarint p.length).length) ∧
    wrapInt ((pre.length : Int) + ((PutUvarint p.length).length : Int))
      = ((pre.length + (PutUvarint p.length).length : Nat) : Int) ∧
    wrapInt (((pre.length + (PutUvarint p.length).length : Nat) : Int) + intOfUint64 p.length)
      = ((pre ++ PutUvarint p.length ++ p).length : Int) ∧
    wrapInt ((pre.length : Int)
        + wrapInt (((PutUvarint p.length).length : Int) + intOfUint64 p.length))
      = ((pre ++ PutUvarint p.length ++ p).length : Int) := by
  have hpos : 0 < (PutUvarint p.length).length := putUvarintFuel_length_pos 9 p.length
  have hl : body.length
      = pre.length + ((PutUvarint p.length).length + p.length + rest.length) := by
    rw [hb]; simp only [List.length_append]
  have hp : p.length < 2 ^ 63 := by omega
  have hint := intOfUint64_of_lt p.length hp
  have hlen2 : (pre ++ PutUvarint p.length ++ p).length
      = pre.length + (PutUvarint p.length).length + p.length := by
    simp only [List.length_append]
  have e1 : wrapInt (((PutUvarint p.length).length : Int) + (p.length : Int))
      = ((PutUvarint p.length).length : Int) + (p.length : Int) :=
    wrapInt_of_range _ (by omega) (by omega)
  refine ⟨by omega, by omega, ?_, ?_, ?_, ?_⟩
  · rw [Int.toNat_ofNat, hb, List.drop_left, List.append_assoc]
    exact ReadUvarint_PutUvarint p.length (by omega) _
  · rw [wrapInt_of_range _ (by omega) (by omega)]
    push_cast; rfl
  · rw [hint, wrapInt_of_range _ (by omega) (by omega), hlen2]
    push_cast; rfl
  · rw [hint, e1, wrapInt_of_range _ (by omega) (by omega), hlen2]
    push_cast; ring

/-- The loop of `countMetrics` on an encoded corpus, started at the beginning of an entry. -/
theorem countLoop_encode :
    ∀ (paths : List (List UInt8)) (body pre : List UInt8) (fuel : Nat) (c : Int),
      body = pre ++ encodeCorpus paths → body.length < 2 ^ 63 →
      0 ≤ c → c + paths.length < 2 ^ 63 → paths.length < fuel →
      countLoop body fuel c (pre.length : Int) = some (.ok (c + paths.length)) := by
  intro paths
  induction paths with
  | nil =>
    intro body pre fuel c hb hlen hc0 hc hf
    obtain ⟨f, rfl⟩ : ∃ f, fuel = f + 1 := ⟨fuel - 1, by simp at hf; omega⟩
    have hl : body.length = pre.length := by rw [hb]; simp [encodeCorpus]
    simp [countLoop, hl]
  | cons p ps ih =>
    intro body pre fuel c hb hlen hc0 hc hf
    obtain ⟨f, rfl⟩ : ∃ f, fuel = f + 1 := ⟨fuel - 1, by simp at hf; omega⟩
    obtain ⟨h1, h2, h3, _, _, h6⟩ := entry_facts body pre p (encodeCorpus ps) hb hlen
    simp only [List.length_cons, Nat.cast_add, Nat.cast_one] at hc hf ⊢
    have hc1 : wrapInt (c + 1) = c + 1 := by apply wrapInt_of_range <;> omega
    simp only [countLoop, h1, h2, h3, h6, hc1, if_false]
    rw [ih body (pre ++ PutUvarint p.length ++ p) f (c + 1)
      (by rw [hb]; simp [encodeCorpus, List.append_assoc]) hlen (by omega) (by omega)
      (by omega)]
    have hsum : c + 1 + (ps.length : Int) = c + ((ps.length : Int) + 1) := by omega
    rw [hsum]

theorem buildMetricMap_cons (m : Metric) (ms : List Metric) (i : Nat) (mp : MetricMap) :
    buildMetricMap (m :: ms) i mp = buildMetricMap ms (i + 1) (mp.insert m.Path i) := rfl

/-- The decoding loop on an encoded corpus, started at the beginning of an
entry with the metrics `done` already stored. -/
theorem decodeLoop_encode :
    ∀ (paths : List (List UInt8)) (body pre : List UInt8) (fuel : Nat)
      (done : List Metric) (mp : MetricMap),
      body = pre ++ encodeCorpus paths → body.length < 2 ^ 63 → paths.length < fuel →
      decodeLoop body fuel done.length (pre.length : Int)
          (done ++ List.replicate paths.length Metric.zero) mp
        = some (.ok (done ++ paths.map (fun p => ⟨p, ∅⟩),
            buildMetricMap (paths.map (fun p => ⟨p, ∅⟩)) done.length mp)) := by
  intro paths
  induction paths with
  | nil =>
    intro body pre fuel done mp hb hlen hf
    obtain ⟨f, rfl⟩ : ∃ f, fuel = f + 1 := ⟨fuel - 1, by simp at hf; omega⟩
    have hl : body.length = pre.length := by rw [hb]; simp [encodeCorpus]
    simp [decodeLoop, hl, buildMetricMap]
  | cons p ps ih =>
    intro body pre fuel done mp hb hlen hf
    obtain ⟨f, rfl⟩ : ∃ f, fuel = f + 1 := ⟨fuel - 1, by simp at hf; omega⟩
    obtain ⟨h1, h2, h3, h4, h5, h6⟩ := entry_facts body pre p (encodeCorpus ps) hb hlen
    have hl : body.length = pre.length
        + ((PutUvarint p.length).length + p.length + (encodeCorpus ps).length) := by
      rw [hb]; simp only [encodeCorpus, List.length_append]
    have hlen2 : (pre ++ PutUvarint p.length ++ p).length
        = pre.length + (PutUvarint p.length).length + p.length := by
      simp only [List.length_append]
    have hcond : ¬ ((done ++ List.replicate (p :: ps).length Metric.zero).length ≤ done.length ∨
        ((pre.length + (PutUvarint p.length).length : Nat) : Int) < 0 ∨
        ((pre ++ PutUvarint p.length ++ p).length : Int)
          < ((pre.length + (PutUvarint p.length).length : Nat) : Int) ∨
        (body.length : Int) < ((pre ++ PutUvarint p.length ++ p).length : Int)) := by
      simp only [List.length_append, List.length_replicate, List.length_cons]
      omega
    have hpath : (body.drop ((pre.length + (PutUvarint p.length).length : Nat) : Int).toNat).take
        (((pre ++ PutUvarint p.length ++ p).length : Int)
          - ((pre.length + (PutUvarint p.length).length : Nat) : Int)).toNat = p := by
      have hd : ((pre.length + (PutUvarint p.length).length : Nat) : Int).toNat
          = (pre ++ PutUvarint p.length).length := by
        rw [Int.toNat_ofNat, List.length_append]
      have ht : (((pre ++ PutUvarint p.length ++ p).length : Int)
          - ((pre.length + (PutUvarint p.length).length : Nat) : Int)).toNat = p.length := by
        rw [hlen2]; omega
      have hb2 : body = (pre ++ PutUvarint p.length) ++ (p ++ encodeCorpus ps) := by
        rw [hb]; simp [encodeCorpus, List.append_assoc]
      rw [hd, ht, hb2, List.drop_left, List.take_left]
    have hset : (done ++ List.replicate (p :: ps).length Metric.zero).set done.length ⟨p, ∅⟩
        = (done ++ [⟨p, ∅⟩]) ++ List.replicate ps.length Metric.zero := by
      simp [List.replicate_succ, List.set_append_right]
    simp only [decodeLoop, h1, h2, h3, h4, h5, h6, if_false]
    rw [if_neg hcond, hpath, hset]
    have hdl : done.length + 1 = (done ++ [(⟨p, ∅⟩ : Metric)]).length := by simp
    rw [hdl, ih body (pre ++ PutUvarint p.length ++ p) f (done ++ [(⟨p, ∅⟩ : Metric)])
      (mp.insert p done.length) (by rw [hb]; simp [encodeCorpus, List.append_assoc]) hlen
      (by simp at hf; omega)]
    simp [buildMetricMap_cons]

/-! ## Lemmas: the closed forms by index -/

theorem mem_downSet_index (ml : List Metric) (hd : (ml.map Metric.Path).Nodup)
    (m : Nat) (t : String) :
    t ∈ downSet (metricMapOf ml) ml m ↔ InP1 ml m t := by
  rw [mem_downSet]
  unfold InP1
  constructor
  · rintro (h | ⟨a, ha, h⟩)
    · exact Or.inl h
    · obtain ⟨hal, hanc⟩ := (mem_parents_iff ml hd m a).mp ha
      exact Or.inr ⟨a, hal, hanc, h⟩
  · rintro (h | ⟨a, hal, hanc, h⟩)
    · exact Or.inl h
    · exact Or.inr ⟨a, (mem_parents_iff ml hd m a).mpr ⟨hal, hanc⟩, h⟩

theorem mem_finalSet_index (ml : List Metric) (hd : (ml.map Metric.Path).Nodup)
    (x : Nat) (hx : x < ml.length) (t : String) :
    t ∈ finalSet (metricMapOf ml) ml x ↔ InFinal ml x t := by
  rw [mem_finalSet]
  unfold InFinal
  simp only [mem_downSet_index ml hd]
  constructor
  · rintro (h | ⟨d, hxd, h⟩)
    · exact Or.inl h
    · obtain ⟨_, hanc⟩ := (mem_parents_iff ml hd d x).mp hxd
      exact Or.inr ⟨d, lt_length_of_mem_parents _ ml d x hxd, hanc, h⟩
  · rintro (h | ⟨d, _, hanc, h⟩)
    · exact Or.inl h
    · exact Or.inr ⟨d, (mem_parents_iff ml hd d x).mpr ⟨hx, hanc⟩, h⟩

theorem mem_dotIndices (p : List UInt8) (i : Nat) :
    i ∈ dotIndices p ↔ p[i]? = some dot := by
  unfold dotIndices
  simp only [List.mem_filter, List.mem_range, decide_eq_true_eq]
  constructor
  · exact fun h => h.2
  · exact fun h => ⟨lt_length_of_getElem?_eq_some p i dot h, h⟩

theorem dotIndices_of_no_dot (p : List UInt8) (h : ∀ i : Nat, p[i]? ≠ some dot) :
    dotIndices p = [] := by
  apply List.eq_nil_iff_forall_not_mem.mpr
  intro i hi
  exact h i ((mem_dotIndices p i).mp hi)

theorem dotIndices_of_last (p : List UInt8) (n : Nat) (hn : p[n]? = some dot)
    (hlast : ∀ j : Nat, n < j → p[j]? ≠ some dot) :
    dotIndices p = dotIndices (p.take n) ++ [n] := by
  have hlt : n < p.length := lt_length_of_getElem?_eq_some p n dot hn
  have hlen : p.length = (n + 1) + (p.length - (n + 1)) := by omega
  have htake : (p.take n).length = n := by rw [List.length_take]; omega
  unfold dotIndices
  rw [htake, hlen, List.range_add, List.filter_append, List.range_succ, List.filter_append]
  have h3 : List.filter (fun i => decide (p[i]? = some dot))
      (List.map (fun x => n + 1 + x) (List.range (p.length - (n + 1)))) = [] := by
    apply List.eq_nil_iff_forall_not_mem.mpr
    intro j hj
    obtain ⟨hj1, hj2⟩ := List.mem_filter.mp hj
    obtain ⟨x, _, rfl⟩ := List.mem_map.mp hj1
    exact hlast (n + 1 + x) (by omega) (by simpa using hj2)
  have h2 : List.filter (fun i => decide (p[i]? = some dot)) [n] = [n] := by
    simp [hn]
  have h1 : List.filter (fun i => decide (p[i]? = some dot)) (List.range n)
      = List.filter (fun i => decide ((p.take n)[i]? = some dot)) (List.range n) := by
    apply List.filter_congr
    intro i hi
    rw [List.getElem?_take_of_lt (List.mem_range.mp hi)]
  rw [h3, h2, h1, List.append_nil]

/-- The keys of the ancestor walk are the dot-terminated prefixes, longest
first. -/
theorem walkKeys_eq_dotPrefixes :
    ∀ (fuel : Nat) (p : List UInt8), p.length < fuel → walkKeys fuel p = dotPrefixes p := by
  intro fuel
  induction fuel with
  | zero => intro p h; omega
  | succ fuel ih =>
    intro p h
    rcases LastIndexByte_spec p dot with ⟨h1, h2⟩ | ⟨n, h1, h2, h3⟩
    · simp [walkKeys, h1, dotPrefixes, dotIndices_of_no_dot p h2]
    · have hn : n < p.length := lt_length_of_getElem?_eq_some p n dot h2
      have hneg : ¬ ((n : Int) < 0) := by omega
      have hlen : (p.take n).length < fuel := by rw [List.length_take]; omega
      simp only [walkKeys, h1, hneg, if_false, Int.toNat_ofNat]
      rw [ih _ hlen]
      unfold dotPrefixes
      rw [dotIndices_of_last p n h2 h3, List.reverse_append, List.reverse_singleton,
        List.singleton_append, List.map_cons]
      congr 1
      apply List.map_congr_left
      intro i hi
      have hi2 : (p.take n)[i]? = some dot :=
        (mem_dotIndices _ i).mp (List.mem_reverse.mp hi)
      have hin : i < n := by
        have := lt_length_of_getElem?_eq_some _ i dot hi2
        rw [List.length_take] at this; omega
      rw [List.take_take]
      congr 1
      omega

theorem foldl_snoc_eq (l acc : List (List UInt8)) :
    l.foldl (fun ks k => ks ++ [k]) acc = acc ++ l := by
  induction l generalizing acc with
  | nil => simp
  | cons a l ih => rw [List.foldl_cons, ih]; simp

theorem ancestorKeys_eq (path : List UInt8) :
    ancestorKeys path = some (walkKeys ((trimDot path).length + 1) (trimDot path)) := by
  unfold ancestorKeys ancestorLoop
  rw [walkAncestors_eq _ _ _ _ (Nat.lt_succ_self _), foldl_snoc_eq]
  simp

theorem dotIndices_pairwise (p : List UInt8) : (dotIndices p).Pairwise (· < ·) :=
  List.Pairwise.sublist (List.filter_sublist _) (List.pairwise_lt_range p.length)

theorem dotIndices_length (l : List UInt8) : (dotIndices l).length = l.count dot := by
  induction l using List.reverseRecOn with
  | nil => rfl
  | append_singleton l b ih =>
    unfold dotIndices at ih ⊢
    rw [List.length_append, List.length_singleton, List.range_succ, List.filter_append,
      List.length_append, List.count_append]
    have h1 : List.filter (fun i => decide ((l ++ [b])[i]? = some dot)) (List.range l.length)
        = List.filter (fun i => decide (l[i]? = some dot)) (List.range l.length) := by
      apply List.filter_congr
      intro i hi
      rw [List.getElem?_append_left (List.mem_range.mp hi)]
    rw [h1, ih]
    congr 1
    by_cases hb : b = dot
    · simp [hb]
    · have hc : List.count dot [b] = 0 := by
        apply List.count_eq_zero.mpr
        intro hm
        exact hb (List.mem_singleton.mp hm).symm
      simp [hb, hc]

theorem dotPrefixes_mem (p k : List UInt8) (hk : k ∈ dotPrefixes p) :
    ∃ i : Nat, p[i]? = some dot ∧ i < p.length ∧ k = p.take (i + 1) := by
  unfold dotPrefixes at hk
  obtain ⟨i, hi, rfl⟩ := List.mem_map.mp hk
  have h := (mem_dotIndices p i).mp (List.mem_reverse.mp hi)
  exact ⟨i, h, lt_length_of_getElem?_eq_some p i dot h, rfl⟩

theorem dotPrefixes_pairwise (p : List UInt8) :
    (dotPrefixes p).Pairwise (fun a b => b.length < a.length) := by
  unfold dotPrefixes
  rw [List.pairwise_map, List.pairwise_reverse]
  apply List.Pairwise.imp_of_mem _ (dotIndices_pairwise p)
  intro a b ha hb hab
  have ha1 := lt_length_of_getElem?_eq_some p a dot ((mem_dotIndices p a).mp ha)
  have hb1 := lt_length_of_getElem?_eq_some p b dot ((mem_dotIndices p b).mp hb)
  simp only [List.length_take]
  omega

/-! ## Lemmas: the rules at a node -/

theorem rulesAt_nil (t : PrefixTree) : t.rulesAt [] = t.Rules := by
  unfold PrefixTree.rulesAt
  rw [nodeAt_nil]

theorem rulesAt_cons (next : UInt8 → Option PrefixTree) (rules : List Nat) (b : UInt8)
    (q : List UInt8) :
    (PrefixTree.mk next rules).rulesAt (b :: q) =
      match next b with
      | none => []
      | some x => x.rulesAt q := by
  unfold PrefixTree.rulesAt
  rw [nodeAt_cons]
  cases next b <;> rfl

theorem rulesAt_empty (q : List UInt8) : PrefixTree.empty.rulesAt q = [] := by
  cases q with
  | nil => rfl
  | cons b bs => simp [PrefixTree.empty, rulesAt_cons]

/-- Adding a rule changes the `Rules` of the node of `p` only. -/
theorem rulesAt_Add (r : Nat) :
    ∀ (p : List UInt8) (t : PrefixTree) (q : List UInt8),
      (t.Add p r).rulesAt q = t.rulesAt q ++ (if q = p then [r] else []) := by
  intro p
  induction p with
  | nil =>
    intro t q
    cases t with
    | mk next rules =>
      cases q with
      | nil => simp [PrefixTree.Add, rulesAt_nil, PrefixTree.Rules]
      | cons b bs => simp [PrefixTree.Add, rulesAt_cons]
  | cons c ps ih =>
    intro t q
    cases t with
    | mk next rules =>
      cases q with
      | nil => simp [PrefixTree.Add, rulesAt_nil, PrefixTree.Rules]
      | cons b bs =>
        simp only [PrefixTree.Add, rulesAt_cons]
        by_cases hbc : b = c
        · subst hbc
          simp only [if_true, ih, List.cons.injEq, true_and]
          cases hn : next b with
          | none => simp [rulesAt_empty]
          | some x => simp
        · simp [hbc]

theorem rulesAt_addRules (q : List UInt8) :
    ∀ (rs : List Tag) (i : Nat) (t : PrefixTree),
      (addRules rs i t).rulesAt q
        = t.rulesAt q ++ (List.range' i rs.length).filter (fun j => hasPrefixAt rs q (j - i)) := by
  intro rs
  induction rs with
  | nil => intro i t; simp [addRules]
  | cons r rs ih =>
    intro i t
    simp only [addRules, List.length_cons, List.range'_succ, List.filter_cons]
    rw [ih]
    have htail : List.filter (fun j => hasPrefixAt rs q (j - (i + 1))) (List.range' (i + 1) rs.length)
        = List.filter (fun j => hasPrefixAt (r :: rs) q (j - i)) (List.range' (i + 1) rs.length) := by
      apply List.filter_congr
      intro j hj
      have hji : i + 1 ≤ j := (List.mem_range'_1.mp hj).1
      have hsub : j - i = (j - (i + 1)) + 1 := by omega
      simp only [hasPrefixAt, hsub, List.getElem?_cons_succ]
    rw [htail]
    have hhead : hasPrefixAt (r :: rs) q (i - i) = decide (r.BytesHasPrefix = some q) := by
      simp [hasPrefixAt]
    rw [hhead]
    cases hr : r.BytesHasPrefix with
    | none => simp
    | some p =>
      simp only [rulesAt_Add, Option.some.injEq, decide_eq_true_eq]
      by_cases hpq : p = q
      · subst hpq; simp
      · have hqp : ¬ q = p := fun h => hpq h.symm
        simp [hpq, hqp]

/-! ## Lemmas: a buffer on which counting does not end -/

theorem loopBody_step :
    ¬ ((loopBody.length : Int) ≤ 0) ∧ ¬ ((0 : Int) < 0) ∧
    ReadUvarint (loopBody.drop (0 : Int).toNat) = .ok (2 ^ 64 - 10, 10) ∧
    wrapInt (0 + wrapInt (((10 : Nat) : Int) + intOfUint64 (2 ^ 64 - 10))) = 0 :=
  ⟨by decide, by decide, rfl, by decide⟩

theorem countLoop_loopBody : ∀ (fuel : Nat) (c : Int), countLoop loopBody fuel c 0 = none := by
  intro fuel
  induction fuel with
  | zero => intro c; rfl
  | succ fuel ih =>
    intro c
    obtain ⟨h1, h2, h3, h4⟩ := loopBody_step
    simp only [countLoop, h1, h2, h3, h4, if_false]
    exact ih _

/-! ## Claims about the two propagation phases -/

/-- C1. Bidirectional propagation: for a corpus with pairwise distinct paths,
phase 1 followed by phase 2 completes, keeps every path, and a tag `T` that
`metricList[x]` carries before propagation is carried afterwards by every
corpus metric whose path is an ancestor of the path of `x` and by every corpus
metric whose path has the path of `x` as an ancestor. -/
theorem bidirectional_propagation (ml : List Metric)
    (hd : (ml.map Metric.Path).Nodup) :
    ∃ out, propagate (metricMapOf ml) ml = some out ∧
      out.length = ml.length ∧ (∀ k, pathAt out k = pathAt ml k) ∧
      ∀ (x y : Nat) (T : String), x < ml.length → y < ml.length → T ∈ tagsAt ml x →
        (IsAncestor (pathAt ml y) (pathAt ml x) ∨ IsAncestor (pathAt ml x) (pathAt ml y)) →
        T ∈ tagsAt out y := by
  have hmp := mapOK_metricMapOf ml
  refine ⟨_, by rw [propagate_eq_propagateOrder, propagateOrder_eq], ?_, ?_, ?_⟩
  · rw [applyEdges_length, applyEdges_length]
  · intro k; rw [pathAt_applyEdges, pathAt_applyEdges]
  · intro x y T hx hy hT hrel
    rw [tagsAt_propagate hmp _ _ (fun i hi => List.mem_range.mpr hi)
      (fun i hi => List.mem_range.mpr hi), mem_finalSet]
    rcases hrel with h | h
    · right
      refine ⟨x, (mem_parents_iff ml hd x y).mpr ⟨hy, h⟩, ?_⟩
      exact (mem_downSet _ ml x T).mpr (Or.inl hT)
    · left
      exact (mem_downSet _ ml y T).mpr
        (Or.inr ⟨x, (mem_parents_iff ml hd y x).mpr ⟨hx, h⟩, hT⟩)

/-- Witness for C1 on the corpus `"g."`, `"g.p."`, `"g.p.c"`. -/
theorem bidirectional_propagation_witness :
    ((chainCorpus "A" "B").map Metric.Path).Nodup ∧
    ∃ out, propagate (metricMapOf (chainCorpus "A" "B")) (chainCorpus "A" "B") = some out ∧
      out.length = (chainCorpus "A" "B").length ∧
      (∀ k, pathAt out k = pathAt (chainCorpus "A" "B") k) ∧
      ∀ (x y : Nat) (T : String), x < (chainCorpus "A" "B").length →
        y < (chainCorpus "A" "B").length → T ∈ tagsAt (chainCorpus "A" "B") x →
        (IsAncestor (pathAt (chainCorpus "A" "B") y) (pathAt (chainCorpus "A" "B") x) ∨
          IsAncestor (pathAt (chainCorpus "A" "B") x) (pathAt (chainCorpus "A" "B") y)) →
        T ∈ tagsAt out y :=
  ⟨by decide, bidirectional_propagation (chainCorpus "A" "B") (by decide)⟩

/-- C6. Order independence within a phase: take a corpus with pairwise distinct
paths, any reordering `ml1` of it, any order `o1` in which phase 1 iterates
`ml` and `o2` in which phase 2 does, and likewise `p1`, `p2` for `ml1`. Both
runs complete, keep the paths, and give equal tag sets to equal paths. -/
theorem order_independence (ml ml1 : List Metric)
    (hd : (ml.map Metric.Path).Nodup) (hperm : ml1.Perm ml)
    (o1 o2 p1 p2 : List Nat)
    (ho1 : o1.Perm (List.range ml.length)) (ho2 : o2.Perm (List.range ml.length))
    (hp1 : p1.Perm (List.range ml1.length)) (hp2 : p2.Perm (List.range ml1.length)) :
    ∃ out out1, propagateOrder (metricMapOf ml) o1 o2 ml = some out ∧
      propagateOrder (metricMapOf ml1) p1 p2 ml1 = some out1 ∧
      (∀ k, pathAt out k = pathAt ml k) ∧ (∀ k, pathAt out1 k = pathAt ml1 k) ∧
      ∀ i j, i < ml.length → j < ml1.length → pathAt ml i = pathAt ml1 j →
        tagsAt out i = tagsAt out1 j := by
  have hd1 : (ml1.map Metric.Path).Nodup := (hperm.map Metric.Path).nodup_iff.mpr hd
  refine ⟨_, _, propagateOrder_eq _ o1 o2 ml, propagateOrder_eq _ p1 p2 ml1, ?_, ?_, ?_⟩
  · intro k; rw [pathAt_applyEdges, pathAt_applyEdges]
  · intro k; rw [pathAt_applyEdges, pathAt_applyEdges]
  · intro i j hi hj hij
    rw [tagsAt_propagate (mapOK_metricMapOf ml) o1 o2 (mem_of_perm_range ho1)
        (mem_of_perm_range ho2),
      tagsAt_propagate (mapOK_metricMapOf ml1) p1 p2 (mem_of_perm_range hp1)
        (mem_of_perm_range hp2)]
    ext t
    rw [mem_finalSet_iff ml hd i hi, mem_finalSet_iff ml1 hd1 j hj, hij,
      FinalTag_perm hperm]

/-- Witness for C6: the chain corpus against its reversal, with two different
pairs of iteration orders. -/
theorem order_independence_witness :
    ∃ out out1,
      propagateOrder (metricMapOf (chainCorpus "A" "B")) [2, 0, 1] [1, 2, 0]
        (chainCorpus "A" "B") = some out ∧
      propagateOrder (metricMapOf (chainCorpus "A" "B").reverse) [0, 1, 2] [2, 1, 0]
        (chainCorpus "A" "B").reverse = some out1 ∧
      (∀ k, pathAt out k = pathAt (chainCorpus "A" "B") k) ∧
      (∀ k, pathAt out1 k = pathAt (chainCorpus "A" "B").reverse k) ∧
      ∀ i j, i < (chainCorpus "A" "B").length → j < (chainCorpus "A" "B").reverse.length →
        pathAt (chainCorpus "A" "B") i = pathAt (chainCorpus "A" "B").reverse j →
        tagsAt out i = tagsAt out1 j :=
  order_independence (chainCorpus "A" "B") (chainCorpus "A" "B").reverse (by decide)
    (List.reverse_perm _) [2, 0, 1] [1, 2, 0] [0, 1, 2] [2, 1, 0]
    (by decide) (by decide) (by decide) (by decide)

/-- C7, as stated, fails on the corpus `"g."`, `"g.a"`, `"g.b"` with only
`"g.a"` tagged `B`: the first run of phase 1 then phase 2 leaves `"g.b"`
without a tag, the second run gives it `B`. -/
theorem rerun_changes_sibling :
    (siblingCorpus.map Metric.Path).Nodup ∧
    ∃ out out2, propagate (metricMapOf siblingCorpus) siblingCorpus = some out ∧
      propagate (metricMapOf siblingCorpus) out = some out2 ∧
      tagsAt out 2 = ∅ ∧ tagsAt out2 2 = {"B"} :=
  ⟨by decide, _, _, rfl, rfl, by decide, by decide⟩

/-- C7, amended. For every corpus with pairwise distinct paths, running phase 1
then phase 2 a second time on the result of a first run completes and leaves
every metric with exactly its first-run tag set united with the first-run tag
sets of its corpus ancestors. So no tag is removed, a tag set is unchanged
exactly when it already holds the first-run tags of every corpus ancestor, and
in particular it is unchanged for a metric without a corpus ancestor. -/
theorem rerun_adds_ancestor_tags (ml : List Metric) (hd : (ml.map Metric.Path).Nodup) :
    ∃ out out2, propagate (metricMapOf ml) ml = some out ∧
      propagate (metricMapOf ml) out = some out2 ∧
      (∀ x, x < ml.length → ∀ t, t ∈ tagsAt out2 x ↔
        (t ∈ tagsAt out x ∨
          ∃ a, a < ml.length ∧ IsAncestor (pathAt ml a) (pathAt ml x) ∧ t ∈ tagsAt out a)) ∧
      (∀ k, tagsAt out k ⊆ tagsAt out2 k) ∧
      (∀ x, x < ml.length →
        (tagsAt out2 x = tagsAt out x ↔
          ∀ a, a < ml.length → IsAncestor (pathAt ml a) (pathAt ml x) →
            tagsAt out a ⊆ tagsAt out x)) ∧
      (∀ x, x < ml.length →
        (∀ a, a < ml.length → ¬ IsAncestor (pathAt ml a) (pathAt ml x)) →
        tagsAt out2 x = tagsAt out x) := by
  have hmp := mapOK_metricMapOf ml
  obtain ⟨out, hrun, hout⟩ : ∃ out, propagate (metricMapOf ml) ml = some out ∧
      out = applyEdges (edges2 (metricMapOf ml) ml (List.range ml.length))
        (applyEdges (edges1 (metricMapOf ml) ml (List.range ml.length)) ml) :=
    ⟨_, propagate_eq _ ml, rfl⟩
  have hl : out.length = ml.length := by
    rw [hout, applyEdges_length, applyEdges_length]
  have hp : ∀ k, pathAt out k = pathAt ml k := by
    intro k; rw [hout, pathAt_applyEdges, pathAt_applyEdges]
  have htag : ∀ k, tagsAt out k = finalSet (metricMapOf ml) ml k := by
    intro k; rw [hout, tagsAt_propagate_range hmp]
  have hmp1 : MapOK (metricMapOf ml) out := hmp.congr hl hp
  obtain ⟨out2, hrun2, hout2⟩ : ∃ out2, propagate (metricMapOf ml) out = some out2 ∧
      out2 = applyEdges (edges2 (metricMapOf ml) out (List.range out.length))
        (applyEdges (edges1 (metricMapOf ml) out (List.range out.length)) out) :=
    ⟨_, propagate_eq _ out, rfl⟩
  have htag2 : ∀ k, tagsAt out2 k = finalSet (metricMapOf ml) out k := by
    intro k; rw [hout2, tagsAt_propagate_range hmp1]
  have hmono : ∀ k, tagsAt out k ⊆ tagsAt out2 k := by
    intro k
    rw [hout2]
    exact Finset.Subset.trans (tagsAt_subset_applyEdges _ _ k)
      (tagsAt_subset_applyEdges _ _ k)
  have hexact : ∀ x, x < ml.length → ∀ t, t ∈ tagsAt out2 x ↔
      (t ∈ tagsAt out x ∨
        ∃ a, a < ml.length ∧ IsAncestor (pathAt ml a) (pathAt ml x) ∧ t ∈ tagsAt out a) := by
    intro x _ t
    rw [htag2, mem_finalSet]
    simp only [mem_downSet, parents_congr _ ml _ hp]
    constructor
    · rintro ((h | ⟨a, ha, h⟩) | ⟨d, hxd, h | ⟨a, ha, h⟩⟩)
      · exact Or.inl h
      · obtain ⟨hal, hanc⟩ := (mem_parents_iff ml hd x a).mp ha
        exact Or.inr ⟨a, hal, hanc, h⟩
      · rw [htag] at h ⊢
        exact Or.inl (finalSet_subset_parent hmp d x hxd h)
      · rcases parents_chain hmp d a x ha hxd with h1 | h1 | h1
        · rw [← h1]; exact Or.inl h
        · obtain ⟨hal, hanc⟩ := (mem_parents_iff ml hd x a).mp h1
          exact Or.inr ⟨a, hal, hanc, h⟩
        · rw [htag] at h ⊢
          exact Or.inl (finalSet_subset_parent hmp a x h1 h)
    · rintro (h | ⟨a, hal, hanc, h⟩)
      · exact Or.inl (Or.inl h)
      · exact Or.inl (Or.inr ⟨a, (mem_parents_iff ml hd x a).mpr ⟨hal, hanc⟩, h⟩)
  have hiff : ∀ x, x < ml.length →
      (tagsAt out2 x = tagsAt out x ↔
        ∀ a, a < ml.length → IsAncestor (pathAt ml a) (pathAt ml x) →
          tagsAt out a ⊆ tagsAt out x) := by
    intro x hx
    constructor
    · intro heq a hal hanc t ht
      rw [← heq]
      exact (hexact x hx t).mpr (Or.inr ⟨a, hal, hanc, ht⟩)
    · intro hsub
      apply Finset.Subset.antisymm _ (hmono x)
      intro t ht
      rcases (hexact x hx t).mp ht with h | ⟨a, hal, hanc, h⟩
      · exact h
      · exact hsub a hal hanc h
  refine ⟨out, out2, hrun, hrun2, hexact, hmono, hiff, ?_⟩
  intro x hx hroot
  exact (hiff x hx).mpr (fun a hal hanc => absurd hanc (hroot a hal))

/-- Witness for the amended C7 on the sibling corpus. -/
theorem rerun_adds_ancestor_tags_witness :
    (siblingCorpus.map Metric.Path).Nodup ∧
    ∃ out out2, propagate (metricMapOf siblingCorpus) siblingCorpus = some out ∧
      propagate (metricMapOf siblingCorpus) out = some out2 ∧
      (∀ x, x < siblingCorpus.length → ∀ t, t ∈ tagsAt out2 x ↔
        (t ∈ tagsAt out x ∨
          ∃ a, a < siblingCorpus.length ∧
            IsAncestor (pathAt siblingCorpus a) (pathAt siblingCorpus x) ∧
            t ∈ tagsAt out a)) ∧
      (∀ k, tagsAt out k ⊆ tagsAt out2 k) ∧
      (∀ x, x < siblingCorpus.length →
        (tagsAt out2 x = tagsAt out x ↔
          ∀ a, a < siblingCorpus.length →
            IsAncestor (pathAt siblingCorpus a) (pathAt siblingCorpus x) →
            tagsAt out a ⊆ tagsAt out x)) ∧
      (∀ x, x < siblingCorpus.length →
        (∀ a, a < siblingCorpus.length →
          ¬ IsAncestor (pathAt siblingCorpus a) (pathAt siblingCorpus x)) →
        tagsAt out2 x = tagsAt out x) :=
  ⟨by decide, rerun_adds_ancestor_tags siblingCorpus (by decide)⟩

/-- C8, as stated, fails: on the corpus `"g."`, `"g.p."`, `"g.p.c"` with the
grandparent tagged `A` and the grandchild `B`, the parent ends with `{A, B}`
also when phase 2 runs before phase 1. -/
theorem swapped_chain_parent :
    "A" ≠ "B" ∧
    ∃ sw, propagateSwapped (metricMapOf (chainCorpus "A" "B")) (chainCorpus "A" "B")
        = some sw ∧ tagsAt sw 1 = {"A", "B"} :=
  ⟨by decide, _, rfl, by decide⟩

/-- C8, amended. For every corpus with pairwise distinct paths that contains a
grandparent `g`, a parent `p` and a grandchild `c` on one dotted chain (`g` an
ancestor of `p`, `p` an ancestor of `c`), the grandparent carrying tag `A` and
the grandchild tag `B`: the parent ends with both `A` and `B` when phase 1 runs
before phase 2, and also when the two phases run in the swapped order; and when
no metric of the corpus initially carries a tag other than `A` and `B` (as in
the corpus that consists of the three with tag sets `{A}`, none, `{B}`), the
parent ends with exactly `{A, B}` in both orders. -/
theorem chain_parent_both_orders (ml : List Metric) (hd : (ml.map Metric.Path).Nodup)
    (g p c : Nat) (A B : String)
    (hg : g < ml.length) (hp : p < ml.length)
    (hgp : IsAncestor (pathAt ml g) (pathAt ml p))
    (hpc : IsAncestor (pathAt ml p) (pathAt ml c))
    (hA : A ∈ tagsAt ml g) (hB : B ∈ tagsAt ml c) :
    ∃ out sw,
      propagate (metricMapOf ml) ml = some out ∧
      propagateSwapped (metricMapOf ml) ml = some sw ∧
      ({A, B} ⊆ tagsAt out p ∧ {A, B} ⊆ tagsAt sw p) ∧
      ((∀ k t, t ∈ tagsAt ml k → t = A ∨ t = B) →
        tagsAt out p = {A, B} ∧ tagsAt sw p = {A, B}) := by
  have hmp := mapOK_metricMapOf ml
  have hgpar : g ∈ parents (metricMapOf ml) ml p := (mem_parents_iff ml hd p g).mpr ⟨hg, hgp⟩
  have hppar : p ∈ parents (metricMapOf ml) ml c := (mem_parents_iff ml hd c p).mpr ⟨hp, hpc⟩
  have hrange : ∀ i, i < ml.length → i ∈ List.range ml.length :=
    fun _ hi => List.mem_range.mpr hi
  have hout : {A, B} ⊆ finalSet (metricMapOf ml) ml p := by
    intro t ht
    rw [mem_finalSet]
    rcases Finset.mem_insert.mp ht with h | h
    · subst h
      exact Or.inl ((mem_downSet _ ml p t).mpr (Or.inr ⟨g, hgpar, hA⟩))
    · have h1 := Finset.mem_singleton.mp h
      subst h1
      exact Or.inr ⟨c, hppar, (mem_downSet _ ml c t).mpr (Or.inl hB)⟩
  have hsw : {A, B} ⊆ swappedSet (metricMapOf ml) ml p := by
    intro t ht
    rw [mem_swappedSet]
    rcases Finset.mem_insert.mp ht with h | h
    · subst h
      exact Or.inr ⟨g, hgpar, (mem_upSet _ ml g t).mpr (Or.inl hA)⟩
    · have h1 := Finset.mem_singleton.mp h
      subst h1
      exact Or.inl ((mem_upSet _ ml p t).mpr (Or.inr ⟨c, hppar, hB⟩))
  refine ⟨_, _, propagate_eq _ ml, propagateSwapped_eq _ ml, ?_, ?_⟩
  · rw [tagsAt_propagate_range hmp, tagsAt_propagateSwapped hmp _ _ hrange hrange]
    exact ⟨hout, hsw⟩
  · intro hAB
    have hin : ∀ k t, t ∈ tagsAt ml k → t ∈ ({A, B} : Finset String) := by
      intro k t ht
      rcases hAB k t ht with h | h
      · rw [h]; exact Finset.mem_insert_self _ _
      · rw [h]; exact Finset.mem_insert_of_mem (Finset.mem_singleton_self _)
    rw [tagsAt_propagate_range hmp, tagsAt_propagateSwapped hmp _ _ hrange hrange]
    constructor
    · apply Finset.Subset.antisymm _ hout
      intro t ht
      rw [mem_finalSet] at ht
      simp only [mem_downSet] at ht
      rcases ht with (h | ⟨a, _, h⟩) | ⟨d, _, h | ⟨a, _, h⟩⟩
      · exact hin _ t h
      · exact hin _ t h
      · exact hin _ t h
      · exact hin _ t h
    · apply Finset.Subset.antisymm _ hsw
      intro t ht
      rw [mem_swappedSet] at ht
      simp only [mem_upSet] at ht
      rcases ht with (h | ⟨d, _, h⟩) | ⟨a, _, h | ⟨d, _, h⟩⟩
      · exact hin _ t h
      · exact hin _ t h
      · exact hin _ t h
      · exact hin _ t h

/-- Witness for the amended C8: the corpus `"g."`, `"g.p."`, `"g.p.c"` with tag
sets `{A}`, none, `{B}`. -/
theorem chain_parent_both_orders_witness :
    ((chainCorpus "A" "B").map Metric.Path).Nodup ∧
    IsAncestor (pathAt (chainCorpus "A" "B") 0) (pathAt (chainCorpus "A" "B") 1) ∧
    IsAncestor (pathAt (chainCorpus "A" "B") 1) (pathAt (chainCorpus "A" "B") 2) ∧
    tagsOf (chainCorpus "A" "B") = [{"A"}, ∅, {"B"}] ∧
    ∃ out sw,
      propagate (metricMapOf (chainCorpus "A" "B")) (chainCorpus "A" "B") = some out ∧
      propagateSwapped (metricMapOf (chainCorpus "A" "B")) (chainCorpus "A" "B") = some sw ∧
      ({"A", "B"} ⊆ tagsAt out 1 ∧ {"A", "B"} ⊆ tagsAt sw 1) ∧
      ((∀ k t, t ∈ tagsAt (chainCorpus "A" "B") k → t = "A" ∨ t = "B") →
        tagsAt out 1 = {"A", "B"} ∧ tagsAt sw 1 = {"A", "B"}) :=
  ⟨by decide, ⟨1, by decide, by decide⟩, ⟨3, by decide, by decide⟩, by decide,
    chain_parent_both_orders (chainCorpus "A" "B") (by decide) 0 1 2 "A" "B"
      (by decide) (by decide) ⟨1, by decide, by decide⟩
      ⟨3, by decide, by decide⟩ (by decide) (by decide)⟩

/-- C10. Upward inheritance: for a corpus with pairwise distinct paths, after
phase 1 followed by phase 2 the tag set of every metric `m` is a subset of the
tag set of every corpus metric whose path is an ancestor of the path of `m`. -/
theorem upward_inheritance (ml : List Metric) (hd : (ml.map Metric.Path).Nodup) :
    ∃ out, propagate (metricMapOf ml) ml = some out ∧
      ∀ m a, m < ml.length → a < ml.length →
        IsAncestor (pathAt ml a) (pathAt ml m) → tagsAt out m ⊆ tagsAt out a := by
  have hmp := mapOK_metricMapOf ml
  refine ⟨_, propagate_eq _ ml, ?_⟩
  intro m a _ ha hanc
  rw [tagsAt_propagate_range hmp, tagsAt_propagate_range hmp]
  exact finalSet_subset_parent hmp m a ((mem_parents_iff ml hd m a).mpr ⟨ha, hanc⟩)

/-- Witness for C10: on the corpus `"db."`, `"db.primary."`,
`"db.primary.latency"` with only the last one tagged `role=db`, all three end
tagged `{role=db}`. -/
theorem upward_inheritance_witness :
    (dbCorpus.map Metric.Path).Nodup ∧
    tagsOf dbCorpus = [∅, ∅, {"role=db"}] ∧
    ∃ out, propagate (metricMapOf dbCorpus) dbCorpus = some out ∧
      tagsOf out = [{"role=db"}, {"role=db"}, {"role=db"}] ∧
      ∀ m a, m < dbCorpus.length → a < dbCorpus.length →
        IsAncestor (pathAt dbCorpus a) (pathAt dbCorpus m) →
        tagsAt out m ⊆ tagsAt out a := by
  refine ⟨by decide, by decide, ?_⟩
  obtain ⟨out, h, hsub⟩ := upward_inheritance dbCorpus (by decide)
  refine ⟨out, h, ?_, hsub⟩
  have hrun : ∃ o, propagate (metricMapOf dbCorpus) dbCorpus = some o ∧
      tagsOf o = [{"role=db"}, {"role=db"}, {"role=db"}] := ⟨_, rfl, by decide⟩
  obtain ⟨o, ho, ht⟩ := hrun
  rw [h] at ho
  cases ho
  exact ht

/-! ## Claims about the matcher -/

/-- C4. Index/full-scan equivalence: take the rules as loaded (no
`BytesHasPrefix` yet), compiled by the loop of `Make`, and a rule-match
predicate under which a rule carrying a literal prefix matches a path only if
the path starts with that prefix. Then for every metric `i` and rule `j`, the
pair matches during the prefix tree walk of `Make` exactly when rule `j` has a
non-nil `BytesHasPrefix` and matches the path of metric `i`. -/
theorem index_fullscan_equivalence (rawRules : List Tag)
    (hraw : ∀ r ∈ rawRules, r.BytesHasPrefix = none)
    (rmatch : Tag → List UInt8 → Bool)
    (hpre : ∀ r ∈ compileRules rawRules, ∀ p path,
      r.BytesHasPrefix = some p → rmatch r path = true → p <+: path)
    (ml : List Metric) (i j : Nat) :
    (∃ m r, ml[i]? = some m ∧ (compileRules rawRules)[j]? = some r ∧
        j ∈ treeWalk (buildPrefixTree (compileRules rawRules)) m.Path ∧
        rmatch r m.Path = true) ↔
    (∃ m r, ml[i]? = some m ∧ (compileRules rawRules)[j]? = some r ∧
        r.BytesHasPrefix ≠ none ∧ rmatch r m.Path = true) := by
  have hne : ∀ r ∈ compileRules rawRules, r.BytesHasPrefix ≠ some [] := by
    intro r hr
    obtain ⟨r0, hr0, rfl⟩ := List.mem_map.mp hr
    unfold compileTag
    by_cases h : r0.HasPrefix = []
    · simp [h, hraw r0 hr0]
    · simp [h]
  constructor
  · rintro ⟨m, r, hm, hr, hw, hmt⟩
    refine ⟨m, r, hm, hr, ?_, hmt⟩
    have hc := count_treeWalk_build (compileRules rawRules) m.Path j
    simp only [hr] at hc
    have hpos : 0 < (treeWalk (buildPrefixTree (compileRules rawRules)) m.Path).count j :=
      List.count_pos_iff.mpr hw
    intro hnone
    simp only [hnone] at hc
    omega
  · rintro ⟨m, r, hm, hr, hp, hmt⟩
    refine ⟨m, r, hm, hr, ?_, hmt⟩
    have hrmem : r ∈ compileRules rawRules := List.getElem?_mem hr
    have hc := count_treeWalk_build (compileRules rawRules) m.Path j
    simp only [hr] at hc
    cases hbp : r.BytesHasPrefix with
    | none => exact absurd hbp hp
    | some p =>
      have hpne : p ≠ [] := by
        intro h; rw [h] at hbp; exact hne r hrmem hbp
      have hpp : p <+: m.Path := hpre r hrmem p m.Path hbp hmt
      simp only [hbp, hpne, hpp, ne_eq, not_false_eq_true, and_self, if_true] at hc
      apply List.count_pos_iff.mp
      omega

/-- Witness for C4: the `servers.` rule with a predicate that tests the literal
prefix, on the servers corpus, metric 1 and rule 0. -/
theorem index_fullscan_equivalence_witness :
    (∃ m r, serversCorpus[1]? = some m ∧ (compileRules [serversRule])[0]? = some r ∧
        0 ∈ treeWalk (buildPrefixTree (compileRules [serversRule])) m.Path ∧
        (fun (r : Tag) (path : List UInt8) =>
          match r.BytesHasPrefix with
          | some p => p.isPrefixOf path
          | none => true) r m.Path = true) ↔
    (∃ m r, serversCorpus[1]? = some m ∧ (compileRules [serversRule])[0]? = some r ∧
        r.BytesHasPrefix ≠ none ∧
        (fun (r : Tag) (path : List UInt8) =>
          match r.BytesHasPrefix with
          | some p => p.isPrefixOf path
          | none => true) r m.Path = true) :=
  index_fullscan_equivalence [serversRule] (by decide)
    (fun r path =>
      match r.BytesHasPrefix with
      | some p => p.isPrefixOf path
      | none => true)
    (by
      intro r _ p path hp hm
      simp only [hp] at hm
      exact List.isPrefixOf_iff_prefix.mp hm)
    serversCorpus 1 0

/-- C5. Rule application count: for every rule list and every path, across the
prefix tree walk and the full-scan pass together `MatchAndMark` is invoked on
rule `j` exactly once when its `BytesHasPrefix` is nil, exactly once when its
`BytesHasPrefix` is a non-empty prefix of the path, and never otherwise; and
the walk visits, in order, exactly the nodes of the non-empty prefixes of the
path that the tree has, stopping at the first missing child edge. -/
theorem rule_application_count (rules : List Tag) (path : List UInt8) :
    (∀ j r, rules[j]? = some r →
      (r.BytesHasPrefix = none →
        (treeWalk (buildPrefixTree rules) path ++ fullScan rules).count j = 1) ∧
      (∀ p, r.BytesHasPrefix = some p → p ≠ [] → p <+: path →
        (treeWalk (buildPrefixTree rules) path ++ fullScan rules).count j = 1) ∧
      (∀ p, r.BytesHasPrefix = some p → (p = [] ∨ ¬ p <+: path) →
        (treeWalk (buildPrefixTree rules) path ++ fullScan rules).count j = 0)) ∧
    (∀ j, rules.length ≤ j →
      (treeWalk (buildPrefixTree rules) path ++ fullScan rules).count j = 0) ∧
    (treeVisit (buildPrefixTree rules) path).length ≤ path.length ∧
    (∀ k, k < (treeVisit (buildPrefixTree rules) path).length →
      ∃ x, (buildPrefixTree rules).nodeAt (path.take (k + 1)) = some x ∧
        (treeVisit (buildPrefixTree rules) path)[k]? = some x.Rules) ∧
    (∀ k, (treeVisit (buildPrefixTree rules) path).length ≤ k → k < path.length →
      (buildPrefixTree rules).nodeAt (path.take (k + 1)) = none) := by
  refine ⟨?_, ?_, treeVisit_spec path (buildPrefixTree rules)⟩
  · intro j r hr
    have h1 := count_treeWalk_build rules path j
    have h2 := count_fullScan rules j
    simp only [hr] at h1 h2
    refine ⟨?_, ?_, ?_⟩
    · intro hn
      simp only [hn] at h1 h2
      rw [List.count_append, h1, h2]
    · intro p hp hne hpre
      simp only [hp] at h1 h2
      rw [List.count_append, h1, h2]
      simp [hne, hpre]
    · intro p hp hor
      simp only [hp] at h1 h2
      rw [List.count_append, h1, h2]
      rcases hor with h | h
      · simp [h]
      · simp [h]
  · intro j hj
    have h1 := count_treeWalk_build rules path j
    have h2 := count_fullScan rules j
    simp only [List.getElem?_eq_none hj] at h1 h2
    rw [List.count_append, h1, h2]

/-- C9. Closure example: for the corpus `"servers."`, `"servers.web01.cpu.load"`,
`"other.metric"` and the single rule `has-prefix = "servers."` tagging
`category=servers`, `Make` ends with the first two metrics tagged
`{category=servers}`, the third untagged, and prints exactly the first two. -/
theorem closure_example :
    ∃ r, makeFrom serversMark [serversRule] (metricMapOf serversCorpus) serversCorpus
        = some r ∧
      r.1.map Metric.Path = serversCorpus.map Metric.Path ∧
      tagsOf r.1 = [{"category=servers"}, {"category=servers"}, ∅] ∧
      r.2.map Metric.Path = (serversCorpus.take 2).map Metric.Path ∧
      tagsOf r.2 = [{"category=servers"}, {"category=servers"}] :=
  ⟨_, rfl, by decide, by decide, by decide, by decide⟩

/-! ## Claims about decoding -/

/-- C2. Decode exactness (round trip): for every ordered list of byte strings
whose encoding `uvarint(len(path)) ++ path ...` fits a Go slice (fewer than
`2^63` bytes), `countMetrics` returns `(len(paths), nil)` as soon as it may run
one iteration more than there are paths, the decoding loop of `Make` leaves
`metricList[i].Path = paths[i]` in the same order, each with an empty tag set,
and `metricMap` as built from that list. -/
theorem decode_exactness (paths : List (List UInt8))
    (hlen : (encodeCorpus paths).length < 2 ^ 63) (fuel : Nat) (hf : paths.length < fuel) :
    countMetrics fuel (encodeCorpus paths) = some (.ok (paths.length : Int)) ∧
    decodeMetrics fuel (encodeCorpus paths) paths.length
      = some (.ok (paths.map (fun p => ⟨p, ∅⟩),
          metricMapOf (paths.map (fun p => ⟨p, ∅⟩)))) ∧
    readMetrics fuel (encodeCorpus paths)
      = some (.ok (paths.map (fun p => ⟨p, ∅⟩),
          metricMapOf (paths.map (fun p => ⟨p, ∅⟩)))) := by
  have hle := encodeCorpus_length_ge paths
  have hcount : countMetrics fuel (encodeCorpus paths) = some (.ok (paths.length : Int)) := by
    have h := countLoop_encode paths (encodeCorpus paths) [] fuel 0 (by simp) hlen
      (by omega) (by omega) hf
    simpa [countMetrics] using h
  have hdec : decodeMetrics fuel (encodeCorpus paths) paths.length
      = some (.ok (paths.map (fun p => ⟨p, ∅⟩),
          metricMapOf (paths.map (fun p => ⟨p, ∅⟩)))) := by
    have h := decodeLoop_encode paths (encodeCorpus paths) [] fuel [] MetricMap.empty
      (by simp) hlen hf
    simpa [decodeMetrics, metricMapOf] using h
  refine ⟨hcount, hdec, ?_⟩
  unfold readMetrics
  rw [hcount]
  have hnn : ¬ ((paths.length : Int) < 0) := by omega
  simp only [hnn, if_false, Int.toNat_ofNat]
  exact hdec

/-- Witness for C2 on the paths `"g."` and `"g.p.c"`. -/
theorem decode_exactness_witness :
    encodeCorpus [[103, 46], [103, 46, 112, 46, 99]]
      = [2, 103, 46, 5, 103, 46, 112, 46, 99] ∧
    countMetrics 3 (encodeCorpus [[103, 46], [103, 46, 112, 46, 99]])
      = some (.ok (([[103, 46], [103, 46, 112, 46, 99]] : List (List UInt8)).length : Int)) ∧
    decodeMetrics 3 (encodeCorpus [[103, 46], [103, 46, 112, 46, 99]])
        ([[103, 46], [103, 46, 112, 46, 99]] : List (List UInt8)).length
      = some (.ok (([[103, 46], [103, 46, 112, 46, 99]] : List (List UInt8)).map
            (fun p => ⟨p, ∅⟩),
          metricMapOf (([[103, 46], [103, 46, 112, 46, 99]] : List (List UInt8)).map
            (fun p => ⟨p, ∅⟩)))) ∧
    readMetrics 3 (encodeCorpus [[103, 46], [103, 46, 112, 46, 99]])
      = some (.ok (([[103, 46], [103, 46, 112, 46, 99]] : List (List UInt8)).map
            (fun p => ⟨p, ∅⟩),
          metricMapOf (([[103, 46], [103, 46, 112, 46, 99]] : List (List UInt8)).map
            (fun p => ⟨p, ∅⟩)))) :=
  ⟨by decide, decode_exactness [[103, 46], [103, 46, 112, 46, 99]] (by decide) 3 (by decide)⟩

/-- C3 fails on the code. The nine bytes `ff ff ff ff ff ff ff ff 7f` declare a
length of `2^63 - 1`, far beyond the buffer: `readBytes + int(namelen)`
overflows, `offset` turns negative and `body[offset:]` panics, so no error is
returned. The eleven bytes `ff ff ff ff ff ff ff ff ff 01 00` declare a length
of `2^64 - 1`: `int(namelen)` is `-1`, `countMetrics` returns `(2, nil)`, and
the decoding loop of `Make` then panics on `body[10:9]`. -/
theorem countMetrics_length_overflow :
    ReadUvarint overflowBody = .ok (2 ^ 63 - 1, 9) ∧
    countMetrics 2 overflowBody = some .panic ∧
    readMetrics 2 overflowBody = some .panic ∧
    ReadUvarint wrapBody = .ok (2 ^ 64 - 1, 10) ∧
    countMetrics 3 wrapBody = some (.ok 2) ∧
    readMetrics 3 wrapBody = some .panic :=
  ⟨rfl, rfl, rfl, rfl, rfl, rfl⟩

/-! ## Claims about monotonicity, emission and the single phases -/

/-- C13. Tag sets never shrink during propagation: for every corpus, every
`metricMap` and every initial tag assignment, both phases complete, and for
every metric the initial tag set is a subset of its tag set after phase 1,
which is a subset of its tag set after phase 2; each single step of either
phase (one key of one ancestor walk) only adds tags. -/
theorem tags_never_shrink (mp : MetricMap) (ml : List Metric) :
    (∃ ml1 out, phase1 mp ml = some ml1 ∧ phase2 mp ml1 = some out ∧
      ∀ k, tagsAt ml k ⊆ tagsAt ml1 k ∧ tagsAt ml1 k ⊆ tagsAt out k) ∧
    (∀ (st : List Metric) (i k : Nat) (key : List UInt8),
      tagsAt st k ⊆ tagsAt (phase1Body mp i st key) k ∧
      tagsAt st k ⊆ tagsAt (phase2Body mp i st key) k) := by
  constructor
  · refine ⟨_, _, phase1Order_eq mp _ ml, phase2Order_eq mp _ _, ?_⟩
    intro k
    exact ⟨tagsAt_subset_applyEdges _ _ k, tagsAt_subset_applyEdges _ _ k⟩
  · intro st i k key
    unfold phase1Body phase2Body
    cases mp key with
    | none => exact ⟨Finset.Subset.refl _, Finset.Subset.refl _⟩
    | some j => exact ⟨tagsAt_subset_addTags _ _ _ _, tagsAt_subset_addTags _ _ _ _⟩

/-- C14. Result emission: for every final corpus state, the metrics printed by
the loop of `Make` are exactly the metrics of `metricList` whose tag set is
non-empty, in corpus order; a metric with an empty tag set is never printed. -/
theorem result_emission (ml : List Metric) :
    printLoop ml = ml.filter (fun m => m.Tags ≠ ∅) ∧
    printed ml = printLoop ml ∧
    (printLoop ml).Sublist ml ∧
    (∀ m ∈ printLoop ml, m.Tags ≠ ∅) ∧
    (∀ m ∈ ml, m.Tags = ∅ → m ∉ printLoop ml) := by
  have hgen : ∀ (l acc : List Metric),
      l.foldl printStep acc = acc ++ l.filter (fun m => m.Tags ≠ ∅) := by
    intro l
    induction l with
    | nil => intro acc; simp
    | cons m ms ih =>
      intro acc
      rw [List.foldl_cons, ih]
      unfold printStep
      by_cases hm : m.Tags = ∅
      · simp [hm]
      · have hc : m.Tags.card ≠ 0 := by
          intro h; exact hm (Finset.card_eq_zero.mp h)
        simp [hm, hc]
  have heq : printLoop ml = ml.filter (fun m => m.Tags ≠ ∅) := by
    unfold printLoop
    rw [hgen]
    simp
  refine ⟨heq, by rw [heq]; rfl, ?_, ?_, ?_⟩
  · rw [heq]; exact List.filter_sublist _
  · intro m hm
    rw [heq] at hm
    simpa using (List.mem_filter.mp hm).2
  · intro m _ hempty hm
    rw [heq] at hm
    have := (List.mem_filter.mp hm).2
    simp [hempty] at this

/-- C17. Each phase is a closure on its own: for every corpus, with the
`metricMap` of the corpus (pairwise distinct paths are not needed for this),
phase 1 completes and running it again on its result changes nothing, and the
same holds for phase 2. -/
theorem phase_closure (ml : List Metric) :
    (∃ ml1, phase1 (metricMapOf ml) ml = some ml1 ∧
      phase1 (metricMapOf ml) ml1 = some ml1) ∧
    (∃ ml2, phase2 (metricMapOf ml) ml = some ml2 ∧
      phase2 (metricMapOf ml) ml2 = some ml2) := by
  have hmp := mapOK_metricMapOf ml
  have hall : ∀ (l : List Metric) (i : Nat), i < l.length → i ∈ List.range l.length :=
    fun _ _ hi => List.mem_range.mpr hi
  constructor
  · refine ⟨_, phase1Order_eq _ _ ml, ?_⟩
    have hl := applyEdges_length (edges1 (metricMapOf ml) ml (List.range ml.length)) ml
    have hp := pathAt_applyEdges (edges1 (metricMapOf ml) ml (List.range ml.length)) ml
    have hmp1 := hmp.congr hl hp
    unfold phase1
    rw [phase1Order_eq]
    congr 1
    apply metricList_ext _ _ (applyEdges_length _ _) (pathAt_applyEdges _ _)
    intro k
    rw [tagsAt_phase1 hmp1 _ (hall _) k]
    apply Finset.Subset.antisymm
    · intro t ht
      rw [mem_downSet] at ht
      simp only [parents_congr _ ml _ hp, tagsAt_phase1 hmp _ (hall ml)] at ht
      rw [tagsAt_phase1 hmp _ (hall ml)]
      rcases ht with h | ⟨a, ha, h⟩
      · exact h
      · rw [mem_downSet] at h ⊢
        rcases h with h | ⟨b, hb, h⟩
        · exact Or.inr ⟨a, ha, h⟩
        · exact Or.inr ⟨b, parents_trans hmp k a b ha hb, h⟩
    · intro t ht
      exact (mem_downSet _ _ k t).mpr (Or.inl ht)
  · refine ⟨_, phase2Order_eq _ _ ml, ?_⟩
    have hl := applyEdges_length (edges2 (metricMapOf ml) ml (List.range ml.length)) ml
    have hp := pathAt_applyEdges (edges2 (metricMapOf ml) ml (List.range ml.length)) ml
    have hmp1 := hmp.congr hl hp
    unfold phase2
    rw [phase2Order_eq]
    congr 1
    apply metricList_ext _ _ (applyEdges_length _ _) (pathAt_applyEdges _ _)
    intro k
    rw [tagsAt_phase2 hmp1 _ (hall _) k]
    apply Finset.Subset.antisymm
    · intro t ht
      rw [mem_upSet] at ht
      simp only [parents_congr _ ml _ hp, tagsAt_phase2 hmp _ (hall ml)] at ht
      rw [tagsAt_phase2 hmp _ (hall ml)]
      rcases ht with h | ⟨d, hd, h⟩
      · exact h
      · rw [mem_upSet] at h ⊢
        rcases h with h | ⟨e, he, h⟩
        · exact Or.inr ⟨d, hd, h⟩
        · exact Or.inr ⟨e, parents_trans hmp e d k he hd, h⟩
    · intro t ht
      exact (mem_upSet _ _ k t).mpr (Or.inl ht)

/-- C18. The order between the two phases is load-bearing: on the corpus
`"g."`, `"g.a"`, `"g.b"` (pairwise distinct paths) with only `"g.a"` tagged `B`,
phase 1 then phase 2 leaves `"g.b"` without a tag, while phase 2 then phase 1
gives it `B`. -/
theorem phases_do_not_commute :
    ∃ ml : List Metric, (ml.map Metric.Path).Nodup ∧
      ∃ out sw x, propagate (metricMapOf ml) ml = some out ∧
        propagateSwapped (metricMapOf ml) ml = some sw ∧
        x < ml.length ∧ tagsAt out x ≠ tagsAt sw x := by
  refine ⟨siblingCorpus, by decide, _, _, 2, rfl, rfl, by decide, by decide⟩

/-! ## Claims about the closed forms -/

/-- C15. Closed form of the final tag assignment: for every corpus with
pairwise distinct paths and every initial assignment, phase 1 then phase 2
completes and a tag is in the tag set of a metric `x` afterwards exactly when
it is in `P1(x)` or in `P1(d)` for a corpus metric `d` that has `x` as an
ancestor, where `P1(m)` is the initial tags of `m` and of its corpus ancestors. -/
theorem final_closed_form (ml : List Metric) (hd : (ml.map Metric.Path).Nodup) :
    ∃ out, propagate (metricMapOf ml) ml = some out ∧
      ∀ x, x < ml.length → ∀ t, t ∈ tagsAt out x ↔ InFinal ml x t := by
  refine ⟨_, propagate_eq _ ml, ?_⟩
  intro x hx t
  rw [tagsAt_propagate_range (mapOK_metricMapOf ml), mem_finalSet_index ml hd x hx]

/-- Witness for C15 on the sibling corpus. -/
theorem final_closed_form_witness :
    (siblingCorpus.map Metric.Path).Nodup ∧
    ∃ out, propagate (metricMapOf siblingCorpus) siblingCorpus = some out ∧
      ∀ x, x < siblingCorpus.length → ∀ t, t ∈ tagsAt out x ↔ InFinal siblingCorpus x t :=
  ⟨by decide, final_closed_form siblingCorpus (by decide)⟩

/-- C16. Closed form of the downward phase: for every corpus with pairwise
distinct paths, every initial assignment and every order in which phase 1
visits the metrics, phase 1 completes and a tag is in the tag set of a metric
`m` afterwards exactly when it is an initial tag of `m` or of a corpus ancestor
of `m`; and the ancestor relation is transitive. -/
theorem downward_closed_form (ml : List Metric) (hd : (ml.map Metric.Path).Nodup)
    (order : List Nat) (ho : order.Perm (List.range ml.length)) :
    (∃ ml1, phase1Order (metricMapOf ml) order ml = some ml1 ∧
      ∀ m, m < ml.length → ∀ t, t ∈ tagsAt ml1 m ↔ InP1 ml m t) ∧
    (∀ a b c : List UInt8, IsAncestor a b → IsAncestor b c → IsAncestor a c) := by
  refine ⟨⟨_, phase1Order_eq _ order ml, ?_⟩, fun a b c hab hbc => hab.trans hbc⟩
  intro m _ t
  rw [tagsAt_phase1 (mapOK_metricMapOf ml) order (mem_of_perm_range ho),
    mem_downSet_index ml hd]

/-- Witness for C16 on the chain corpus, visited in the order 2, 0, 1. -/
theorem downward_closed_form_witness :
    (∃ ml1, phase1Order (metricMapOf (chainCorpus "A" "B")) [2, 0, 1]
        (chainCorpus "A" "B") = some ml1 ∧
      ∀ m, m < (chainCorpus "A" "B").length →
        ∀ t, t ∈ tagsAt ml1 m ↔ InP1 (chainCorpus "A" "B") m t) ∧
    (∀ a b c : List UInt8, IsAncestor a b → IsAncestor b c → IsAncestor a c) :=
  downward_closed_form (chainCorpus "A" "B") (by decide) [2, 0, 1] (by decide)

/-! ## Claims about the ancestor walk and the prefix tree -/

/-- C11. Ancestor enumeration: for every path, with `p` the path with one
trailing `'.'` removed if present, the ancestor walk completes and the keys it
looks up are `p[:i+1]` for each index `i` with `p[i] == '.'`, from the largest
`i` to the smallest, in both phases; every key ends in `'.'` and is strictly
shorter than the path, each key is strictly shorter than the one before it, and
there are as many lookups as `'.'` bytes in `p`. -/
theorem ancestor_enumeration (path : List UInt8) :
    ancestorKeys path = some (dotPrefixes (trimDot path)) ∧
    (∀ (mp : MetricMap) (ml : List Metric) (i : Nat), pathAt ml i = path →
      phase1Step mp ml i
        = some ((dotPrefixes (trimDot path)).foldl (phase1Body mp i) ml) ∧
      phase2Step mp ml i
        = some ((dotPrefixes (trimDot path)).foldl (phase2Body mp i) ml)) ∧
    (∀ k ∈ dotPrefixes (trimDot path), k.getLast? = some dot ∧ k.length < path.length) ∧
    (dotPrefixes (trimDot path)).Pairwise (fun a b => b.length < a.length) ∧
    (dotPrefixes (trimDot path)).length = (trimDot path).count dot := by
  refine ⟨?_, ?_, ?_, dotPrefixes_pairwise _, ?_⟩
  · rw [ancestorKeys_eq, walkKeys_eq_dotPrefixes _ _ (Nat.lt_succ_self _)]
  · intro mp ml i hp
    unfold phase1Step phase2Step
    simp only [hp]
    rw [walkAncestors_eq _ _ _ _ (Nat.lt_succ_self _),
      walkAncestors_eq _ _ _ _ (Nat.lt_succ_self _),
      walkKeys_eq_dotPrefixes _ _ (Nat.lt_succ_self _)]
    exact ⟨rfl, rfl⟩
  · intro k hk
    obtain ⟨i, hi, hil, rfl⟩ := dotPrefixes_mem _ k hk
    have hlen : ((trimDot path).take (i + 1)).length = i + 1 := by
      rw [List.length_take]; omega
    constructor
    · rw [List.getLast?_eq_getElem?, hlen, Nat.add_sub_cancel,
        List.getElem?_take_of_lt (Nat.lt_succ_self i)]
      exact hi
    · rw [hlen]
      unfold trimDot at hi hil
      by_cases hc : 0 < path.length ∧ path[path.length - 1]? = some dot
      · rw [if_pos hc] at hil
        rw [List.length_take] at hil
        omega
      · rw [if_neg hc] at hi hil
        rcases Nat.lt_or_ge (i + 1) path.length with h | h
        · exact h
        · exfalso
          have hie : i = path.length - 1 := by omega
          rw [hie] at hi
          exact hc ⟨by omega, hi⟩
  · unfold dotPrefixes
    rw [List.length_map, List.length_reverse, dotIndices_length]

/-- C12. The method `PrefixTree.Add` attaches the rule at the terminal node and
nowhere else: for every tree `t`, prefix `p`, rule `r` and byte string `q`, the
rules at `q` after `Add` are those before followed by `r` when `q = p`, and
those before when `q` differs from `p`; hence in the tree built from a rule
list the rules at `q` are exactly the rules whose prefix is `q`, in declaration
order. -/
theorem add_attaches_at_terminal (t : PrefixTree) (p : List UInt8) (r : Nat)
    (q : List UInt8) :
    (t.Add p r).rulesAt q = (if q = p then t.rulesAt q ++ [r] else t.rulesAt q) ∧
    ∀ rules : List Tag, (buildPrefixTree rules).rulesAt q = rulesWithPrefix rules q := by
  constructor
  · rw [rulesAt_Add]
    by_cases h : q = p <;> simp [h]
  · intro rules
    unfold buildPrefixTree rulesWithPrefix
    rw [rulesAt_addRules, rulesAt_empty, List.nil_append, List.range_eq_range']
    simp

/-! ## Claims about termination and bounds of the decoding -/

/-- C19 fails on the code. The ten bytes `f6 ff ff ff ff ff ff ff ff 01` are the
varint of `2^64 - 10`; `int(namelen)` is `-10`, so `readBytes + int(namelen)` is
`0`, `offset` stays `0` and the loop of `countMetrics` never returns, whatever
the number of iterations allowed. -/
theorem countMetrics_diverges :
    ReadUvarint loopBody = .ok (2 ^ 64 - 10, 10) ∧
    intOfUint64 (2 ^ 64 - 10) = -10 ∧
    ∀ fuel, countMetrics fuel loopBody = none :=
  ⟨rfl, by decide, fun fuel => countLoop_loopBody fuel 0⟩

/-- C20 fails on the code. On the eleven bytes `ff ff ff ff ff ff ff ff ff 01 00`
the function `countMetrics` returns `(2, nil)`, yet the first iteration of the
decoding loop of `Make` takes `body[10:9]`, which is out of bounds and panics:
the declared length `2^64 - 1` is `-1` as an `int`. -/
theorem decode_out_of_bounds :
    countMetrics 3 wrapBody = some (.ok 2) ∧
    ReadUvarint wrapBody = .ok (2 ^ 64 - 1, 10) ∧
    wrapInt (0 + ((10 : Nat) : Int)) = 10 ∧
    wrapInt (wrapInt (0 + ((10 : Nat) : Int)) + intOfUint64 (2 ^ 64 - 1)) = 9 ∧
    decodeMetrics 3 wrapBody 2 = some .panic ∧
    ∀ fuel, 0 < fuel → decodeMetrics fuel wrapBody 2 = some .panic := by
  refine ⟨rfl, rfl, by decide, by decide, rfl, ?_⟩
  intro fuel hf
  obtain ⟨f, rfl⟩ : ∃ f, fuel = f + 1 := ⟨fuel - 1, by omega⟩
  rfl

end Tagger
